import Mathlib

/-!
# Verification of the text-editing engine

A shallow embedding, at the byte level, of the core text-editing engine of a
terminal text editor (`src/main.rs`): the buffer, the time-coalesced
undo/redo manager, the visual-line layout (word wrap), the position mapper,
and the literal-substring find/replace engine.  Buffers are modelled as lists
of bytes (`List Nat`); a `ropey` rope together with its byte/char index
conversions is observationally a byte sequence, and every position the
program manipulates is a byte offset.  Display-width-aware wrapping is
modelled over lists of characters carrying their display width, since the
wrap algorithm consumes exactly the character sequence, each character's
UTF-8 byte length, and each character's terminal display width.
-/

namespace TextEditor

/-- `Rope::insert` at a byte position: splice `t` into `b` at offset `pos`.
(The Rust converts the byte offset to a char index first; on a boundary
offset the two agree byte-for-byte.) -/
def listInsert (b : List Nat) (pos : Nat) (t : List Nat) : List Nat :=
  b.take pos ++ t ++ b.drop pos

/-- `Rope::remove` of the byte range `[s, e)`. -/
def listRemove (b : List Nat) (s e : Nat) : List Nat :=
  b.take s ++ b.drop e

/-- `Rope::byte_slice(s..e)`: the bytes of `b` in `[s, e)`. -/
def sliceL (b : List Nat) (s e : Nat) : List Nat :=
  (b.take e).drop s

theorem sliceL_eq_take_drop (b : List Nat) (s n : Nat) :
    sliceL b s (s + n) = (b.drop s).take n := by
  simp [sliceL, List.drop_take]

/-! ## Find engine (`Editor::update_find_matches`)

The Rust scans `text.as_bytes().windows(query.len())` and records every
window equal to the query, i.e. it tests every byte offset, including
offsets inside a previous match. -/

/-- The byte window of length `n` starting at offset `i`. -/
def window (text : List Nat) (i n : Nat) : List Nat :=
  (text.drop i).take n

/-- The match list built by `Editor::update_find_matches`: every offset `i`
whose window of `query.length` bytes equals `query`, as `(start, end)` byte
ranges, in increasing order of offset.  `windows(n)` of a slice of length
`L` enumerates offsets `0, 1, …, L − n`, which is `List.range (L + 1 − n)`
(empty when `n > L`). -/
def findMatches (text query : List Nat) : List (Nat × Nat) :=
  if query.isEmpty then []
  else
    (List.range (text.length + 1 - query.length)).filterMap fun i =>
      if window text i query.length = query then some (i, i + query.length)
      else none

/-- The current-match index chosen by `update_find_matches`: the first match
whose start is at or after the caret, else index 0; `none` when the match
list is empty. -/
def updateFindIndex (ms : List (Nat × Nat)) (caret : Nat) : Option Nat :=
  if ms.isEmpty then none
  else
    match ms.findIdx? (fun m => caret ≤ m.1) with
    | some i => some i
    | none => some 0

/-- Modelled from the spec: the non-overlapping left-to-right scan the spec
describes for `set_query` — each scan resumes immediately after the previous
match's end, so overlapping occurrences are not reported.  Used only to
contrast with `findMatches`, the scan the code performs. -/
def specFindMatchesGo (text query : List Nat) : Nat → Nat → List (Nat × Nat)
  | 0, _ => []
  | fuel + 1, i =>
    if i + query.length ≤ text.length then
      if window text i query.length = query then
        (i, i + query.length) :: specFindMatchesGo text query fuel (i + query.length)
      else specFindMatchesGo text query fuel (i + 1)
    else []

/-- Modelled from the spec: non-overlapping match list (see
`specFindMatchesGo`). -/
def specFindMatches (text query : List Nat) : List (Nat × Nat) :=
  if query.isEmpty then [] else specFindMatchesGo text query (text.length + 1) 0

/-- Membership in the code's match list: exactly the byte-exact literal
occurrences, at every byte offset. -/
theorem mem_findMatches_iff (text query : List Nat) (hq : query ≠ []) (s e : Nat) :
    (s, e) ∈ findMatches text query ↔
      e = s + query.length ∧ e ≤ text.length ∧ sliceL text s e = query := by
  have hne : query.isEmpty = false := by
    cases query with
    | nil => exact absurd rfl hq
    | cons a t => rfl
  have hlen : 0 < query.length := by
    cases query with
    | nil => exact absurd rfl hq
    | cons a t => exact Nat.succ_pos _
  simp only [findMatches, hne, Bool.false_eq_true, if_false, List.mem_filterMap,
    List.mem_range]
  constructor
  · rintro ⟨i, hi, hcond⟩
    by_cases hw : window text i query.length = query
    · rw [if_pos hw] at hcond
      have h := Option.some.inj hcond
      have h1 : i = s := congrArg Prod.fst h
      have h2 : i + query.length = e := congrArg Prod.snd h
      subst h1; subst h2
      refine ⟨rfl, by omega, ?_⟩
      rw [sliceL_eq_take_drop]; exact hw
    · rw [if_neg hw] at hcond; exact absurd hcond (by simp)
  · rintro ⟨rfl, he, hs⟩
    refine ⟨s, by omega, ?_⟩
    rw [sliceL_eq_take_drop] at hs
    simp only [window]
    rw [if_pos hs]

/-- The code's match list is strictly increasing in start offsets. -/
theorem findMatches_pairwise (text query : List Nat) :
    List.Pairwise (fun m m' : Nat × Nat => m.1 < m'.1) (findMatches text query) := by
  unfold findMatches
  split
  · exact List.Pairwise.nil
  · rw [List.pairwise_filterMap]
    refine List.Pairwise.imp ?_ (List.pairwise_lt_range _)
    intro i j hij x hx y hy
    by_cases hwi : window text i query.length = query <;>
      by_cases hwj : window text j query.length = query <;>
        simp [hwi, hwj] at hx hy
    subst hx; subst hy; exact hij

/-- C1 counterexample: on buffer `"aaa"` (bytes `[97,97,97]`) with query
`"aa"`, `update_find_matches` reports `[(0,2),(1,3)]` — the second match
starts inside the first, so occurrences overlap — while the non-overlapping
resume-after-match scan described by the claim yields `[(0,2)]`. -/
theorem C1_counterexample :
    findMatches [97, 97, 97] [97, 97] = [(0, 2), (1, 3)] ∧
    specFindMatches [97, 97, 97] [97, 97] = [(0, 2)] ∧
    findMatches [97, 97, 97] [97, 97] ≠ specFindMatches [97, 97, 97] [97, 97] := by
  decide

/-- C1 (amended): for every buffer and non-empty query, setting the query
produces the ordered list of all byte-exact literal occurrences at every
byte offset — overlapping occurrences included — sorted strictly
left-to-right; in particular, for buffer `"ababab"` and query `"ab"` the
match list is `[(0,2),(2,4),(4,6)]`. -/
theorem C1_matches_are_all_occurrences :
    (∀ text query : List Nat, query ≠ [] →
      (∀ s e : Nat, (s, e) ∈ findMatches text query ↔
          e = s + query.length ∧ e ≤ text.length ∧ sliceL text s e = query) ∧
      List.Pairwise (fun m m' : Nat × Nat => m.1 < m'.1) (findMatches text query)) ∧
    findMatches [97, 98, 97, 98, 97, 98] [97, 98] = [(0, 2), (2, 4), (4, 6)] :=
  ⟨fun text query hq =>
    ⟨mem_findMatches_iff text query hq, findMatches_pairwise text query⟩,
   by decide⟩

/-- Witness for C1: the characterization applied to buffer `"aaa"`, query
`"aa"`, match `(0, 2)`. -/
theorem C1_matches_are_all_occurrences_witness :
    (0, 2) ∈ findMatches [97, 97, 97] [97, 97] ↔
      2 = 0 + ([97, 97] : List Nat).length ∧
        2 ≤ ([97, 97, 97] : List Nat).length ∧
        sliceL [97, 97, 97] 0 2 = [97, 97] :=
  (C1_matches_are_all_occurrences.1 [97, 97, 97] [97, 97] (by decide)).1 0 2

/-! ## Edit/Undo manager

`EditOp`, `UndoGroup`, and the undo-relevant fields of `Editor`, with
`push_op`, `finalize_undo_group`, `undo` and `redo` embedded from the
source.  `Instant` timestamps are modelled as natural numbers counting
milliseconds, so `Duration::from_secs(1)` is `1000` and
`now.duration_since(t)` is truncated subtraction `now - t`. -/

/-- `EditOp`: a minimal reversible mutation at a byte position. -/
inductive EditOp where
  | insert (pos : Nat) (text : List Nat)
  | delete (pos : Nat) (text : List Nat)
  deriving DecidableEq, Repr

/-- `UndoGroup`: ops recorded as `(op, caret_before, caret_after)` plus the
creation timestamp. -/
structure UndoGroup where
  ops : List (EditOp × Nat × Nat)
  timestamp : Nat
  deriving DecidableEq, Repr

/-- The undo-relevant state of `Editor`: the rope (as bytes), caret,
selection anchor, both history stacks, the open group, the last-edit time
and the modified flag. -/
structure EState where
  rope : List Nat
  caret : Nat
  anchor : Option Nat
  undoStack : List UndoGroup
  redoStack : List UndoGroup
  currentGroup : Option UndoGroup
  lastEditTime : Option Nat
  modified : Bool
  deriving DecidableEq, Repr

/-- `Editor::push_op`: start a new group when there is no prior edit or more
than one second elapsed since it (pushing any open group), else append to
the open group; always clear the redo stack and stamp the edit time. -/
def pushOp (s : EState) (now : Nat) (op : EditOp) (caretBefore caretAfter : Nat) :
    EState :=
  let newGroup : Bool :=
    match s.lastEditTime with
    | none => true
    | some t => decide (1000 < now - t)
  if newGroup then
    { s with
      undoStack :=
        match s.currentGroup with
        | some g => s.undoStack ++ [g]
        | none => s.undoStack
      currentGroup := some ⟨[(op, caretBefore, caretAfter)], now⟩
      redoStack := []
      lastEditTime := some now
      modified := true }
  else
    { s with
      currentGroup :=
        match s.currentGroup with
        | some g => some ⟨g.ops ++ [(op, caretBefore, caretAfter)], g.timestamp⟩
        | none => none
      redoStack := []
      lastEditTime := some now
      modified := true }

/-- `Editor::finalize_undo_group`: close the open group, pushing it to the
undo stack when non-empty. -/
def finalizeUndoGroup (s : EState) : EState :=
  match s.currentGroup with
  | some g =>
    if g.ops.isEmpty then { s with currentGroup := none }
    else { s with currentGroup := none, undoStack := s.undoStack ++ [g] }
  | none => s

/-- Inverting one op during `undo`: an `Insert` removes the inserted span
(its `safe_pos`/`safe_end` clamped to the rope length and guarded exactly
as in the source), a `Delete` re-inserts the removed text at its clamped
position. -/
def applyUndoOp (b : List Nat) : EditOp → List Nat
  | .insert pos text =>
    if min pos b.length < b.length ∧ min (pos + text.length) b.length ≤ b.length then
      listRemove b (min pos b.length) (min (pos + text.length) b.length)
    else b
  | .delete pos text => listInsert b (min pos b.length) text

/-- Re-applying one op during `redo` (clamped and guarded as in the
source). -/
def applyRedoOp (b : List Nat) : EditOp → List Nat
  | .insert pos text => listInsert b (min pos b.length) text
  | .delete pos text =>
    if min pos b.length < b.length ∧ min (pos + text.length) b.length ≤ b.length then
      listRemove b (min pos b.length) (min (pos + text.length) b.length)
    else b

/-- The rope/caret fold performed by `undo`: replay ops in reverse,
inverting each and tracking `caret = *before`. The list argument is the
already-reversed op list. -/
def undoSeq (acc : List Nat × Nat) : List (EditOp × Nat × Nat) → List Nat × Nat
  | [] => acc
  | x :: rest => undoSeq (applyUndoOp acc.1 x.1, x.2.1) rest

/-- The rope/caret fold performed by `redo`: replay ops in order, tracking
`caret = *after`. -/
def redoSeq (acc : List Nat × Nat) : List (EditOp × Nat × Nat) → List Nat × Nat
  | [] => acc
  | x :: rest => redoSeq (applyRedoOp acc.1 x.1, x.2.2) rest

/-- `Editor::undo`: finalize, pop the most recent group, replay its ops in
reverse inverting each, clamp the restored caret, clear the selection, move
the group to the redo stack. -/
def undo (s : EState) : EState :=
  let s1 := finalizeUndoGroup s
  match s1.undoStack.getLast? with
  | none => s1
  | some g =>
    let rc := undoSeq (s1.rope, s1.caret) g.ops.reverse
    { s1 with
      rope := rc.1
      caret := min rc.2 rc.1.length
      anchor := none
      undoStack := s1.undoStack.dropLast
      redoStack := s1.redoStack ++ [g]
      modified := !s1.undoStack.dropLast.isEmpty }

/-- `Editor::redo`: pop the most recent redo group, replay its ops in
order, clamp the caret, clear the selection, move the group back to the
undo stack. -/
def redo (s : EState) : EState :=
  match s.redoStack.getLast? with
  | none => s
  | some g =>
    let rc := redoSeq (s.rope, s.caret) g.ops
    { s with
      rope := rc.1
      caret := min rc.2 rc.1.length
      anchor := none
      undoStack := s.undoStack ++ [g]
      redoStack := s.redoStack.dropLast
      modified := true }

/-- `undo` called `n` times. -/
def undoRep : Nat → EState → EState
  | 0, s => s
  | n + 1, s => undoRep n (undo s)

/-- All recorded ops, oldest first: the undo stack's groups in order
followed by the open group. -/
def flatOps (s : EState) : List (EditOp × Nat × Nat) :=
  (s.undoStack.map UndoGroup.ops).flatten ++
    (match s.currentGroup with
     | some g => g.ops
     | none => [])

/-- The number of undo units still pending: stacked groups plus the open
group. -/
def totalGroups (s : EState) : Nat :=
  s.undoStack.length +
    (match s.currentGroup with
     | some _ => 1
     | none => 0)

/-! ## Edit commands

The insert/delete edit commands of the editor, at the byte level, each
carrying the `Instant::now()` timestamp of its execution:

* `insertText text t` — `insert_char`/`paste` with no selection: splice
  `text` at the caret, advance the caret, record `Insert{pos, text}` with
  the pre/post carets;
* `deleteBack k t` — `backspace` with no selection, where the character
  before the caret occupies `k` bytes;
* `deleteFwd k t` — `delete` with no selection, where the character after
  the caret occupies `k` bytes;
* `deleteRange a t` — `delete_selection` with selection anchor `a`: remove
  the selected range, collapse the caret to its start, record
  `Delete{start, text}`. -/
inductive EditCmd where
  | insertText (text : List Nat) (t : Nat)
  | deleteBack (k : Nat) (t : Nat)
  | deleteFwd (k : Nat) (t : Nat)
  | deleteRange (a : Nat) (t : Nat)
  deriving DecidableEq, Repr

/-- One edit command applied to the editor state (mirroring `insert_char`,
`backspace`, `delete` and `delete_selection`). -/
def stepCmd (s : EState) : EditCmd → EState
  | .insertText text t =>
    let before := s.caret
    let rope' := listInsert s.rope s.caret text
    pushOp { s with rope := rope', caret := s.caret + text.length } t
      (.insert before text) before (s.caret + text.length)
  | .deleteBack k t =>
    let k' := min k s.caret
    if k' = 0 then s
    else
      let pos := s.caret - k'
      let text := sliceL s.rope pos s.caret
      pushOp { s with rope := listRemove s.rope pos s.caret, caret := pos } t
        (.delete pos text) s.caret pos
  | .deleteFwd k t =>
    let k' := min k (s.rope.length - s.caret)
    if k' = 0 then s
    else
      let text := sliceL s.rope s.caret (s.caret + k')
      pushOp { s with rope := listRemove s.rope s.caret (s.caret + k') } t
        (.delete s.caret text) s.caret s.caret
  | .deleteRange a t =>
    let st := min a s.caret
    let en := max a s.caret
    if st < en ∧ en ≤ s.rope.length then
      let text := sliceL s.rope st en
      pushOp { s with rope := listRemove s.rope st en, caret := st, anchor := none } t
        (.delete st text) s.caret st
    else s

/-- The initial editor state over buffer `b0` with caret `c0`. -/
def initState (b0 : List Nat) (c0 : Nat) : EState :=
  ⟨b0, c0, none, [], [], none, none, false⟩

/-- A sequence of edit commands applied in order. -/
def applyCmds (s : EState) (cmds : List EditCmd) : EState :=
  cmds.foldl stepCmd s

/-! ## Validity of recorded op traces -/

/-- `ValidOps b ops b2`: the recorded ops `ops`, replayed in order from
rope `b`, are each in bounds (and each `Delete` records exactly the bytes
it removed) and produce rope `b2`.  Every trace the editor records is of
this form. -/
inductive ValidOps : List Nat → List (EditOp × Nat × Nat) → List Nat → Prop where
  | nil (b : List Nat) : ValidOps b [] b
  | ins (b : List Nat) (pos : Nat) (text : List Nat) (c1 c2 : Nat)
      (rest : List (EditOp × Nat × Nat)) (b2 : List Nat)
      (hpos : pos ≤ b.length)
      (hrest : ValidOps (listInsert b pos text) rest b2) :
      ValidOps b ((EditOp.insert pos text, c1, c2) :: rest) b2
  | del (b : List Nat) (pos : Nat) (text : List Nat) (c1 c2 : Nat)
      (rest : List (EditOp × Nat × Nat)) (b2 : List Nat)
      (hpos : pos + text.length ≤ b.length)
      (htext : sliceL b pos (pos + text.length) = text)
      (hrest : ValidOps (listRemove b pos (pos + text.length)) rest b2) :
      ValidOps b ((EditOp.delete pos text, c1, c2) :: rest) b2

theorem listInsert_length (b : List Nat) (pos : Nat) (t : List Nat)
    (h : pos ≤ b.length) : (listInsert b pos t).length = b.length + t.length := by
  simp [listInsert]
  omega

theorem listRemove_length (b : List Nat) (pos e : Nat) (h : e ≤ b.length)
    (h2 : pos ≤ e) : (listRemove b pos e).length = b.length - (e - pos) := by
  simp [listRemove]
  omega

/-- Undoing a recorded insert restores the rope it was applied to. -/
theorem applyUndoOp_insert (b : List Nat) (pos : Nat) (text : List Nat)
    (h : pos ≤ b.length) :
    applyUndoOp (listInsert b pos text) (.insert pos text) = b := by
  have hlen : (listInsert b pos text).length = b.length + text.length :=
    listInsert_length b pos text h
  have htake : (b.take pos).length = pos := List.length_take_of_le h
  have hb' : listInsert b pos text = b.take pos ++ (text ++ b.drop pos) := by
    simp [listInsert]
  simp only [applyUndoOp, hlen]
  have hsp : min pos (b.length + text.length) = pos := by omega
  have hse : min (pos + text.length) (b.length + text.length) = pos + text.length := by
    omega
  rw [hsp, hse]
  by_cases hg : pos < b.length + text.length
  · rw [if_pos ⟨hg, by omega⟩]
    have h1 : (listInsert b pos text).take pos = b.take pos := by
      rw [hb']; exact List.take_left' htake
    have h2 : (listInsert b pos text).drop (pos + text.length) = b.drop pos := by
      have hassoc : listInsert b pos text = (b.take pos ++ text) ++ b.drop pos := by
        simp [listInsert]
      rw [hassoc]
      exact List.drop_left' (by simp [htake])
    unfold listRemove
    rw [h1, h2, List.take_append_drop]
  · rw [if_neg (by tauto)]
    have ht : text = [] := List.length_eq_zero.mp (by omega)
    subst ht
    simp [listInsert]

/-- Undoing a recorded delete restores the rope it was applied to. -/
theorem applyUndoOp_delete (b : List Nat) (pos : Nat) (text : List Nat)
    (hpos : pos + text.length ≤ b.length)
    (htext : sliceL b pos (pos + text.length) = text) :
    applyUndoOp (listRemove b pos (pos + text.length)) (.delete pos text) = b := by
  have hlen : (listRemove b pos (pos + text.length)).length = b.length - text.length := by
    rw [listRemove_length b pos (pos + text.length) hpos (by omega)]
    omega
  have htake : (b.take pos).length = pos := List.length_take_of_le (by omega)
  have hmin : min pos (listRemove b pos (pos + text.length)).length = pos := by
    rw [hlen]; omega
  simp only [applyUndoOp]
  rw [hmin]
  unfold listInsert listRemove
  have h1 : (b.take pos ++ b.drop (pos + text.length)).take pos = b.take pos :=
    List.take_left' htake
  have h2 : (b.take pos ++ b.drop (pos + text.length)).drop pos = b.drop (pos + text.length) :=
    List.drop_left' htake
  rw [h1, h2]
  have hsplit : b.take (pos + text.length) ++ b.drop (pos + text.length) = b :=
    List.take_append_drop _ b
  have htt : b.take (pos + text.length) = b.take pos ++ text := by
    have : b.take (pos + text.length) =
        (b.take (pos + text.length)).take pos ++ (b.take (pos + text.length)).drop pos :=
      (List.take_append_drop _ _).symm
    rw [this, List.take_take]
    have hm : min pos (pos + text.length) = pos := by omega
    rw [hm]
    unfold sliceL at htext
    rw [htext]
  calc b.take pos ++ text ++ b.drop (pos + text.length)
      = b.take (pos + text.length) ++ b.drop (pos + text.length) := by
        rw [htt, List.append_assoc]
    _ = b := hsplit

/-- Re-doing a recorded insert applies it exactly. -/
theorem applyRedoOp_insert (b : List Nat) (pos : Nat) (text : List Nat)
    (h : pos ≤ b.length) :
    applyRedoOp b (.insert pos text) = listInsert b pos text := by
  simp only [applyRedoOp]
  rw [min_eq_left h]

/-- Re-doing a recorded delete applies it exactly. -/
theorem applyRedoOp_delete (b : List Nat) (pos : Nat) (text : List Nat)
    (h : pos + text.length ≤ b.length) :
    applyRedoOp b (.delete pos text) = listRemove b pos (pos + text.length) := by
  simp only [applyRedoOp]
  have hsp : min pos b.length = pos := by omega
  have hse : min (pos + text.length) b.length = pos + text.length := by omega
  rw [hsp, hse]
  by_cases hg : pos < b.length
  · rw [if_pos ⟨hg, by omega⟩]
  · rw [if_neg (by tauto)]
    have hb : pos = b.length := by omega
    have ht : text = [] := List.length_eq_zero.mp (by omega)
    subst ht
    unfold listRemove
    simp [hb]

theorem undoSeq_append (acc : List Nat × Nat) (l1 l2 : List (EditOp × Nat × Nat)) :
    undoSeq acc (l1 ++ l2) = undoSeq (undoSeq acc l1) l2 := by
  induction l1 generalizing acc with
  | nil => rfl
  | cons x rest ih =>
    simp only [List.cons_append, undoSeq]
    exact ih _

theorem undoSeq_caret_irrel (b : List Nat) (c c' : Nat)
    (l : List (EditOp × Nat × Nat)) (h : l ≠ []) :
    undoSeq (b, c) l = undoSeq (b, c') l := by
  cases l with
  | nil => exact absurd rfl h
  | cons x rest => rfl

/-- Replaying a valid trace backwards through `applyUndoOp` recovers the
original rope, with the caret tracked to the earliest op's
`caret_before`. -/
theorem undoSeq_roundtrip {b : List Nat} {ops : List (EditOp × Nat × Nat)}
    {b2 : List Nat} (hv : ValidOps b ops b2) (c : Nat) :
    undoSeq (b2, c) ops.reverse = (b, ((ops.head?).map (fun x => x.2.1)).getD c) := by
  induction hv generalizing c with
  | nil b => rfl
  | ins b pos text c1 c2 rest b2 hpos hrest ih =>
    rw [List.reverse_cons, undoSeq_append, ih c]
    show undoSeq
      (applyUndoOp (listInsert b pos text) (EditOp.insert pos text), c1) [] = _
    rw [applyUndoOp_insert b pos text hpos]
    rfl
  | del b pos text c1 c2 rest b2 hpos htext hrest ih =>
    rw [List.reverse_cons, undoSeq_append, ih c]
    show undoSeq
      (applyUndoOp (listRemove b pos (pos + text.length)) (EditOp.delete pos text),
        c1) [] = _
    rw [applyUndoOp_delete b pos text hpos htext]
    rfl

/-- Replaying a valid trace forwards through `applyRedoOp` reproduces the
edited rope, with the caret tracked to the last op's `caret_after`. -/
theorem redoSeq_replay {b : List Nat} {ops : List (EditOp × Nat × Nat)}
    {b2 : List Nat} (hv : ValidOps b ops b2) (c : Nat) :
    redoSeq (b, c) ops = (b2, ((ops.getLast?).map (fun x => x.2.2)).getD c) := by
  induction hv generalizing c with
  | nil b => rfl
  | ins b pos text c1 c2 rest b2 hpos hrest ih =>
    show redoSeq (applyRedoOp b (EditOp.insert pos text), c2) rest = _
    rw [applyRedoOp_insert b pos text hpos, ih c2]
    cases rest with
    | nil => rfl
    | cons y t =>
      rw [List.getLast?_cons_cons]
      obtain ⟨z, hz⟩ := Option.isSome_iff_exists.mp
        (List.getLast?_isSome.mpr (List.cons_ne_nil y t))
      rw [hz]
      rfl
  | del b pos text c1 c2 rest b2 hpos htext hrest ih =>
    show redoSeq (applyRedoOp b (EditOp.delete pos text), c2) rest = _
    rw [applyRedoOp_delete b pos text hpos, ih c2]
    cases rest with
    | nil => rfl
    | cons y t =>
      rw [List.getLast?_cons_cons]
      obtain ⟨z, hz⟩ := Option.isSome_iff_exists.mp
        (List.getLast?_isSome.mpr (List.cons_ne_nil y t))
      rw [hz]
      rfl

/-- Every group on the undo stack, and the open group, is non-empty (true
of every reachable state: `push_op` creates singletons and appends,
`finalize_undo_group` refuses empty groups). -/
def GroupsNonempty (s : EState) : Prop :=
  (∀ g ∈ s.undoStack, g.ops ≠ []) ∧ ∀ g, s.currentGroup = some g → g.ops ≠ []

theorem finalize_flatOps (s : EState) : flatOps (finalizeUndoGroup s) = flatOps s := by
  cases hc : s.currentGroup with
  | none => simp [finalizeUndoGroup, flatOps, hc]
  | some g =>
    by_cases hg : g.ops.isEmpty
    · simp [finalizeUndoGroup, flatOps, hc, hg, List.isEmpty_iff.mp hg]
    · simp [finalizeUndoGroup, flatOps, hc, hg]

theorem finalize_idem (s : EState) :
    finalizeUndoGroup (finalizeUndoGroup s) = finalizeUndoGroup s := by
  cases hc : s.currentGroup with
  | none => simp [finalizeUndoGroup, hc]
  | some g =>
    by_cases hg : g.ops.isEmpty <;> simp [finalizeUndoGroup, hc, hg]

theorem undo_finalize (s : EState) : undo (finalizeUndoGroup s) = undo s := by
  show (let s1 := finalizeUndoGroup (finalizeUndoGroup s); _) = undo s
  unfold undo
  rw [finalize_idem]

/-- One `undo` on a fully-stacked state: the record-level effect of popping
the last group. -/
theorem undo_concat (s : EState) (gs : List UndoGroup) (g : UndoGroup)
    (hcur : s.currentGroup = none) (hsplit : s.undoStack = gs ++ [g]) :
    undo s =
      { s with
        rope := (undoSeq (s.rope, s.caret) g.ops.reverse).1
        caret := min (undoSeq (s.rope, s.caret) g.ops.reverse).2
          (undoSeq (s.rope, s.caret) g.ops.reverse).1.length
        anchor := none
        undoStack := gs
        redoStack := s.redoStack ++ [g]
        modified := !gs.isEmpty } := by
  have hfin : finalizeUndoGroup s = s := by
    simp [finalizeUndoGroup, hcur]
  simp only [undo, hfin, hsplit, List.getLast?_concat, List.dropLast_concat]

/-- Unwinding a fully-stacked history (`currentGroup = none`) group by
group: the rope and caret are the fold of all recorded ops in reverse, the
stacks empty out, and the selection is cleared. -/
theorem undoRep_stack (n : Nat) (s : EState) (hcur : s.currentGroup = none)
    (hng : ∀ g ∈ s.undoStack, g.ops ≠ []) (hn : s.undoStack.length = n)
    (hpos : 1 ≤ n) :
    (undoRep n s).rope = (undoSeq (s.rope, s.caret) (flatOps s).reverse).1 ∧
    (undoRep n s).caret =
      min (undoSeq (s.rope, s.caret) (flatOps s).reverse).2 (undoRep n s).rope.length ∧
    (undoRep n s).undoStack = [] ∧
    (undoRep n s).currentGroup = none ∧
    (undoRep n s).anchor = none := by
  induction n generalizing s with
  | zero => omega
  | succ m ih =>
    rcases List.eq_nil_or_concat s.undoStack with hnil | ⟨gs, g, hsplit⟩
    · rw [hnil] at hn; simp at hn
    · rw [List.concat_eq_append] at hsplit
      have hundo := undo_concat s gs g hcur hsplit
      have hflat : flatOps s = (gs.map UndoGroup.ops).flatten ++ g.ops := by
        simp [flatOps, hcur, hsplit]
      have hglen : gs.length + 1 = m + 1 := by
        rw [hsplit] at hn; simpa using hn
      rcases Nat.eq_zero_or_pos m with hm | hm
      · subst hm
        have hgs : gs = [] := List.length_eq_zero.mp (by omega)
        subst hgs
        have h1 : undoRep (0 + 1) s = undo s := rfl
        rw [h1, hundo, hflat]
        simp only [List.map_nil, List.flatten_nil, List.nil_append]
        simp [hcur]
      · have hng' : ∀ g' ∈ (undo s).undoStack, g'.ops ≠ [] := by
          rw [hundo]
          intro g' hg'
          exact hng g' (by rw [hsplit]; exact List.mem_append_left _ hg')
        have hrec := ih (undo s) (by rw [hundo]; exact hcur) hng'
          (by rw [hundo]; simpa using hglen) hm
        have hflat' : flatOps (undo s) = (gs.map UndoGroup.ops).flatten := by
          rw [hundo]
          simp [flatOps, hcur]
        have hfne : (gs.map UndoGroup.ops).flatten ≠ [] := by
          have hgsne : gs ≠ [] := by
            intro hco
            rw [hco] at hglen
            simp at hglen
            omega
          rcases List.eq_nil_or_concat gs with hgnil | ⟨gs0, g0, hg0⟩
          · exact absurd hgnil hgsne
          · rw [List.concat_eq_append] at hg0
            rw [hg0]
            simp only [List.map_append, List.flatten_append, List.map_cons,
              List.map_nil, List.flatten_cons, List.flatten_nil, List.append_nil]
            have hne0 : g0.ops ≠ [] :=
              hng g0 (by rw [hsplit, hg0]; simp)
            intro hco
            rcases List.append_eq_nil.mp hco with ⟨h1, h2⟩
            exact hne0 h2
        have hchain :
            undoSeq ((undo s).rope, (undo s).caret) (flatOps (undo s)).reverse =
              undoSeq (s.rope, s.caret) (flatOps s).reverse := by
          rw [hflat, List.reverse_append, undoSeq_append, hflat']
          have hrop : (undo s).rope = (undoSeq (s.rope, s.caret) g.ops.reverse).1 := by
            rw [hundo]
          have hrevne : ((gs.map UndoGroup.ops).flatten).reverse ≠ [] := by
            simpa using hfne
          calc undoSeq ((undo s).rope, (undo s).caret)
                ((gs.map UndoGroup.ops).flatten).reverse
              = undoSeq ((undoSeq (s.rope, s.caret) g.ops.reverse).1,
                  (undoSeq (s.rope, s.caret) g.ops.reverse).2)
                  ((gs.map UndoGroup.ops).flatten).reverse := by
                rw [← hrop]
                exact undoSeq_caret_irrel _ _ _ _ hrevne
            _ = undoSeq (undoSeq (s.rope, s.caret) g.ops.reverse)
                  ((gs.map UndoGroup.ops).flatten).reverse := rfl
        show (undoRep m (undo s)).rope = _ ∧ (undoRep m (undo s)).caret = _ ∧ _
        rw [← hchain]
        exact hrec

/-- One recorded op is in bounds at rope `b` and produces rope `b'`. -/
def OpOk (b : List Nat) : EditOp → List Nat → Prop
  | .insert pos text, b' => pos ≤ b.length ∧ b' = listInsert b pos text
  | .delete pos text, b' =>
    pos + text.length ≤ b.length ∧
    sliceL b pos (pos + text.length) = text ∧
    b' = listRemove b pos (pos + text.length)

theorem validOps_nil {b b2 : List Nat} (h : ValidOps b [] b2) : b = b2 := by
  cases h
  rfl

theorem validOps_append {b0 : List Nat} {l : List (EditOp × Nat × Nat)}
    {b : List Nat} (h : ValidOps b0 l b) {op : EditOp} {cb ca : Nat}
    {b' : List Nat} (hop : OpOk b op b') :
    ValidOps b0 (l ++ [(op, cb, ca)]) b' := by
  induction h with
  | nil bb =>
    cases op with
    | insert pos text =>
      obtain ⟨h1, h2⟩ := hop
      rw [h2]
      exact ValidOps.ins bb pos text cb ca [] _ h1 (ValidOps.nil _)
    | delete pos text =>
      obtain ⟨h1, h2, h3⟩ := hop
      rw [h3]
      exact ValidOps.del bb pos text cb ca [] _ h1 h2 (ValidOps.nil _)
  | ins b pos text c1 c2 rest b2 hpos hrest ih =>
    exact ValidOps.ins b pos text c1 c2 _ _ hpos (ih hop)
  | del b pos text c1 c2 rest b2 hpos htext hrest ih =>
    exact ValidOps.del b pos text c1 c2 _ _ hpos htext (ih hop)

theorem pushOp_rope (s : EState) (now : Nat) (op : EditOp) (cb ca : Nat) :
    (pushOp s now op cb ca).rope = s.rope ∧
    (pushOp s now op cb ca).caret = s.caret ∧
    (pushOp s now op cb ca).anchor = s.anchor ∧
    (pushOp s now op cb ca).lastEditTime = some now := by
  unfold pushOp
  cases s.lastEditTime with
  | none => simp
  | some t =>
    by_cases hlt : 1000 < now - t <;> simp [hlt]

theorem pushOp_flatOps (s : EState) (now : Nat) (op : EditOp) (cb ca : Nat)
    (h : s.currentGroup = none → s.lastEditTime = none) :
    flatOps (pushOp s now op cb ca) = flatOps s ++ [(op, cb, ca)] := by
  unfold pushOp
  cases hl : s.lastEditTime with
  | none =>
    cases hc : s.currentGroup with
    | none => simp [flatOps, hc]
    | some g => simp [flatOps, hc]
  | some t =>
    by_cases hlt : 1000 < now - t
    · cases hc : s.currentGroup with
      | none => simp [hlt, flatOps, hc]
      | some g => simp [hlt, flatOps, hc]
    · cases hc : s.currentGroup with
      | none =>
        have h2 := h hc
        rw [hl] at h2
        exact absurd h2 (by simp)
      | some g => simp [hlt, flatOps, hc]

theorem pushOp_current_some (s : EState) (now : Nat) (op : EditOp) (cb ca : Nat)
    (h : s.currentGroup = none → s.lastEditTime = none) :
    ∃ g, (pushOp s now op cb ca).currentGroup = some g ∧ g.ops ≠ [] := by
  unfold pushOp
  cases hl : s.lastEditTime with
  | none => exact ⟨⟨[(op, cb, ca)], now⟩, by simp, by simp⟩
  | some t =>
    by_cases hlt : 1000 < now - t
    · exact ⟨⟨[(op, cb, ca)], now⟩, by simp [hlt], by simp⟩
    · cases hc : s.currentGroup with
      | none =>
        have := h hc
        rw [hl] at this
        exact absurd this (by simp)
      | some g =>
        refine ⟨⟨g.ops ++ [(op, cb, ca)], g.timestamp⟩, by simp [hlt, hc], by simp⟩

theorem pushOp_groups (s : EState) (now : Nat) (op : EditOp) (cb ca : Nat)
    (h : GroupsNonempty s) :
    GroupsNonempty (pushOp s now op cb ca) := by
  unfold pushOp
  cases hl : s.lastEditTime with
  | none =>
    cases hc : s.currentGroup with
    | none =>
      refine ⟨?_, ?_⟩
      · simpa using h.1
      · intro g hg
        simp at hg
        rw [← hg]
        simp
    | some g0 =>
      refine ⟨?_, ?_⟩
      · simp only []
        intro g hg
        simp at hg
        rcases hg with hg | hg
        · exact h.1 g hg
        · rw [hg]; exact h.2 g0 hc
      · intro g hg
        simp at hg
        rw [← hg]
        simp
  | some t =>
    by_cases hlt : 1000 < now - t
    · cases hc : s.currentGroup with
      | none =>
        refine ⟨?_, ?_⟩
        · simp [hlt]
          exact h.1
        · intro g hg
          simp [hlt] at hg
          rw [← hg]
          simp
      | some g0 =>
        refine ⟨?_, ?_⟩
        · simp [hlt]
          intro g hg
          rcases hg with hg | hg
          · exact h.1 g hg
          · rw [hg]; exact h.2 g0 hc
        · intro g hg
          simp [hlt] at hg
          rw [← hg]
          simp
    · cases hc : s.currentGroup with
      | none =>
        refine ⟨by simp [hlt, hc]; exact h.1, ?_⟩
        intro g hg
        simp [hlt, hc] at hg
      | some g0 =>
        refine ⟨by simp [hlt, hc]; exact h.1, ?_⟩
        intro g hg
        simp [hlt, hc] at hg
        rw [← hg]
        simp

/-- The reachability invariant of the edit machine started on buffer `b0`
with caret `c0`: the caret is in bounds, all groups are non-empty, the
recorded trace is valid and leads from `b0` to the current rope, the
earliest recorded op's `caret_before` is `c0`, an empty trace means nothing
has been recorded, and an absent open group means no edit has been
recorded since the last boundary. -/
structure Inv (b0 : List Nat) (c0 : Nat) (s : EState) : Prop where
  caretLe : s.caret ≤ s.rope.length
  groups : GroupsNonempty s
  valid : ValidOps b0 (flatOps s) s.rope
  firstBefore : ∀ x : EditOp × Nat × Nat, (flatOps s).head? = some x → x.2.1 = c0
  emptyCase : flatOps s = [] → s.caret = c0 ∧ s.undoStack = [] ∧ s.currentGroup = none
  curLast : s.currentGroup = none → s.lastEditTime = none

theorem flatOps_update_rc (s : EState) (r' : List Nat) (c' : Nat) (a' : Option Nat) :
    flatOps { s with rope := r', caret := c', anchor := a' } = flatOps s := rfl

/-- Recording one in-bounds op through `push_op`, after updating rope,
caret and anchor, preserves the machine invariant. -/
theorem pushOp_inv {b0 : List Nat} {c0 : Nat} {s : EState} (h : Inv b0 c0 s)
    (now : Nat) (op : EditOp) (ca : Nat) (r' : List Nat) (c' : Nat)
    (a' : Option Nat) (hop : OpOk s.rope op r') (hc' : c' ≤ r'.length) :
    Inv b0 c0 (pushOp { s with rope := r', caret := c', anchor := a' } now op s.caret ca) := by
  set s1 : EState := { s with rope := r', caret := c', anchor := a' } with hs1
  have hcl : s1.currentGroup = none → s1.lastEditTime = none := h.curLast
  have hflat : flatOps (pushOp s1 now op s.caret ca) =
      flatOps s ++ [(op, s.caret, ca)] := by
    rw [pushOp_flatOps s1 now op s.caret ca hcl]
    rfl
  have hfields := pushOp_rope s1 now op s.caret ca
  constructor
  · rw [hfields.2.1, hfields.1]
    exact hc'
  · exact pushOp_groups s1 now op s.caret ca h.groups
  · rw [hflat, hfields.1]
    exact validOps_append h.valid hop
  · intro x hx
    rw [hflat] at hx
    cases hfe : flatOps s with
    | nil =>
      rw [hfe] at hx
      simp at hx
      rw [← hx]
      exact (h.emptyCase hfe).1
    | cons y t =>
      rw [hfe] at hx
      simp at hx
      rw [← hx]
      exact h.firstBefore y (by rw [hfe]; rfl)
  · intro hfe
    rw [hflat] at hfe
    exact absurd hfe (by simp)
  · intro hcg
    obtain ⟨g, hg, _⟩ := pushOp_current_some s1 now op s.caret ca hcl
    rw [hcg] at hg
    exact absurd hg (by simp)

/-- Every edit command preserves the machine invariant. -/
theorem stepCmd_inv {b0 : List Nat} {c0 : Nat} {s : EState} (h : Inv b0 c0 s)
    (cmd : EditCmd) : Inv b0 c0 (stepCmd s cmd) := by
  cases cmd with
  | insertText text t =>
    show Inv b0 c0 (pushOp { s with
      rope := listInsert s.rope s.caret text,
      caret := s.caret + text.length, anchor := s.anchor } t
      (.insert s.caret text) s.caret (s.caret + text.length))
    exact pushOp_inv h t _ _ _ _ _ ⟨h.caretLe, rfl⟩
      (by rw [listInsert_length s.rope s.caret text h.caretLe]
          have := h.caretLe
          omega)
  | deleteBack k t =>
    show Inv b0 c0 (if min k s.caret = 0 then s else _)
    by_cases hk : min k s.caret = 0
    · rw [if_pos hk]; exact h
    · rw [if_neg hk]
      have hle : s.caret - min k s.caret + (sliceL s.rope (s.caret - min k s.caret) s.caret).length = s.caret := by
        have : (sliceL s.rope (s.caret - min k s.caret) s.caret).length =
            min k s.caret := by
          unfold sliceL
          rw [List.length_drop, List.length_take]
          have h1 := h.caretLe
          omega
        omega
      refine pushOp_inv h t _ _ _ _ _ ?_ ?_
      · refine ⟨?_, ?_, ?_⟩
        · rw [hle]; exact h.caretLe
        · rw [hle]
        · rw [hle]
      · rw [listRemove_length s.rope _ s.caret h.caretLe (by omega)]
        have h1 := h.caretLe
        omega
  | deleteFwd k t =>
    show Inv b0 c0 (if min k (s.rope.length - s.caret) = 0 then s else _)
    by_cases hk : min k (s.rope.length - s.caret) = 0
    · rw [if_pos hk]; exact h
    · rw [if_neg hk]
      have hlen : (sliceL s.rope s.caret (s.caret + min k (s.rope.length - s.caret))).length =
          min k (s.rope.length - s.caret) := by
        unfold sliceL
        rw [List.length_drop, List.length_take]
        have h1 := h.caretLe
        omega
      refine pushOp_inv h t _ _ _ _ _ ?_ ?_
      · refine ⟨?_, ?_, ?_⟩
        · rw [hlen]
          have h1 := h.caretLe
          omega
        · rw [hlen]
        · rw [hlen]
      · rw [listRemove_length s.rope _ _ (by have := h.caretLe; omega) (by omega)]
        have h1 := h.caretLe
        omega
  | deleteRange a t =>
    show Inv b0 c0
      (if min a s.caret < max a s.caret ∧ max a s.caret ≤ s.rope.length then _ else s)
    by_cases hg : min a s.caret < max a s.caret ∧ max a s.caret ≤ s.rope.length
    · rw [if_pos hg]
      have hlen : (sliceL s.rope (min a s.caret) (max a s.caret)).length =
          max a s.caret - min a s.caret := by
        unfold sliceL
        rw [List.length_drop, List.length_take]
        omega
      have heq : min a s.caret + (sliceL s.rope (min a s.caret) (max a s.caret)).length =
          max a s.caret := by
        rw [hlen]; omega
      refine pushOp_inv h t _ _ _ _ _ ?_ ?_
      · refine ⟨?_, ?_, ?_⟩
        · rw [heq]; exact hg.2
        · rw [heq]
        · rw [heq]
      · rw [listRemove_length s.rope _ _ hg.2 (by omega)]
        omega
    · rw [if_neg hg]; exact h

theorem finalize_fields (s : EState) :
    (finalizeUndoGroup s).rope = s.rope ∧ (finalizeUndoGroup s).caret = s.caret ∧
    (finalizeUndoGroup s).currentGroup = none := by
  cases hc : s.currentGroup with
  | none => simp [finalizeUndoGroup, hc]
  | some g => by_cases hg : g.ops.isEmpty <;> simp [finalizeUndoGroup, hc, hg]

theorem finalize_stack_length (s : EState) (h : GroupsNonempty s) :
    (finalizeUndoGroup s).undoStack.length = totalGroups s := by
  cases hc : s.currentGroup with
  | none => simp [finalizeUndoGroup, totalGroups, hc]
  | some g =>
    have hne : g.ops ≠ [] := h.2 g hc
    have hg : g.ops.isEmpty = false := by
      cases hops : g.ops with
      | nil => exact absurd hops hne
      | cons y t => rfl
    simp [finalizeUndoGroup, totalGroups, hc, hg]

theorem finalize_groups (s : EState) (h : GroupsNonempty s) :
    GroupsNonempty (finalizeUndoGroup s) := by
  cases hc : s.currentGroup with
  | none =>
    refine ⟨?_, ?_⟩
    · simp only [finalizeUndoGroup, hc]
      exact h.1
    · intro g hg
      rw [(finalize_fields s).2.2] at hg
      exact absurd hg (by simp)
  | some g =>
    have hne : g.ops ≠ [] := h.2 g hc
    have hg : g.ops.isEmpty = false := by
      cases hops : g.ops with
      | nil => exact absurd hops hne
      | cons y t => rfl
    refine ⟨?_, ?_⟩
    · simp only [finalizeUndoGroup, hc, hg]
      simp only [Bool.false_eq_true, if_false]
      intro g' hg'
      simp at hg'
      rcases hg' with hg' | hg'
      · exact h.1 g' hg'
      · rw [hg']; exact hne
    · simp [finalizeUndoGroup, hc, hg]

theorem undoRep_finalize (n : Nat) (s : EState) (hn : 1 ≤ n) :
    undoRep n s = undoRep n (finalizeUndoGroup s) := by
  cases n with
  | zero => omega
  | succ m =>
    show undoRep m (undo s) = undoRep m (undo (finalizeUndoGroup s))
    rw [undo_finalize]

theorem totalGroups_zero (s : EState) (h : totalGroups s = 0) : flatOps s = [] := by
  unfold totalGroups at h
  cases hc : s.currentGroup with
  | none =>
    rw [hc] at h
    simp at h
    simp [flatOps, hc, h]
  | some g =>
    rw [hc] at h
    simp at h

theorem totalGroups_pos (s : EState) (h : flatOps s ≠ []) : 1 ≤ totalGroups s := by
  by_contra hcon
  exact h (totalGroups_zero s (by omega))

theorem applyCmds_inv {b0 : List Nat} {c0 : Nat} (cmds : List EditCmd) :
    ∀ s : EState, Inv b0 c0 s → Inv b0 c0 (applyCmds s cmds) := by
  induction cmds with
  | nil => exact fun s h => h
  | cons cmd rest ih =>
    intro s h
    exact ih (stepCmd s cmd) (stepCmd_inv h cmd)

theorem initState_inv (b0 : List Nat) (c0 : Nat) (hc : c0 ≤ b0.length) :
    Inv b0 c0 (initState b0 c0) :=
  { caretLe := hc
    groups := ⟨by intro g hg; exact absurd hg (by simp [initState]), by
      intro g hg; exact absurd hg (by simp [initState])⟩
    valid := ValidOps.nil b0
    firstBefore := by intro x hx; exact absurd hx (by simp [flatOps, initState])
    emptyCase := fun _ => ⟨rfl, rfl, rfl⟩
    curLast := fun _ => rfl }

/-- Undoing every pending unit of any invariant-satisfying state restores
the original rope and caret and empties the history. -/
theorem undoRep_restores {b0 : List Nat} {c0 : Nat} (s : EState)
    (hinv : Inv b0 c0 s) (hc : c0 ≤ b0.length) :
    (undoRep (totalGroups s) s).rope = b0 ∧
    (undoRep (totalGroups s) s).caret = c0 ∧
    (undoRep (totalGroups s) s).undoStack = [] ∧
    (undoRep (totalGroups s) s).currentGroup = none := by
  by_cases hfe : flatOps s = []
  · obtain ⟨hc0, hstack, hcur⟩ := hinv.emptyCase hfe
    have ht : totalGroups s = 0 := by simp [totalGroups, hstack, hcur]
    rw [ht]
    have hrope : s.rope = b0 := (validOps_nil (hfe ▸ hinv.valid)).symm
    exact ⟨hrope, hc0, hstack, hcur⟩
  · have htg : 1 ≤ totalGroups s := totalGroups_pos s hfe
    obtain ⟨hr0, hc0, hcur0⟩ := finalize_fields s
    have hlen0 : (finalizeUndoGroup s).undoStack.length = totalGroups s :=
      finalize_stack_length s hinv.groups
    have hflat0 : flatOps (finalizeUndoGroup s) = flatOps s := finalize_flatOps s
    have hng0 : ∀ g ∈ (finalizeUndoGroup s).undoStack, g.ops ≠ [] :=
      (finalize_groups s hinv.groups).1
    have hmain := undoRep_stack (totalGroups s) (finalizeUndoGroup s) hcur0 hng0
      hlen0 htg
    rw [hflat0, hr0, hc0] at hmain
    obtain ⟨x, hx⟩ : ∃ x, (flatOps s).head? = some x := by
      cases hfo : flatOps s with
      | nil => exact absurd hfo hfe
      | cons y t => exact ⟨y, rfl⟩
    have hrt := undoSeq_roundtrip hinv.valid s.caret
    rw [hx] at hrt
    have hx1 : x.2.1 = c0 := hinv.firstBefore x hx
    have hrt1 : (undoSeq (s.rope, s.caret) (flatOps s).reverse).1 = b0 := by
      rw [hrt]
    have hrt2 : (undoSeq (s.rope, s.caret) (flatOps s).reverse).2 = c0 := by
      rw [hrt]; exact hx1
    rw [hrt1, hrt2] at hmain
    rw [undoRep_finalize (totalGroups s) s htg]
    refine ⟨hmain.1, ?_, hmain.2.2.1, hmain.2.2.2.1⟩
    rw [hmain.2.1, hmain.1]
    omega

/-- C2: for every initial buffer and caret and every sequence of
insert/delete edit commands, calling `undo()` once per pending undo unit
(that is, until the undo stack and the open group are exhausted) returns
the buffer to its exact original byte content and the caret to its
original position, leaving the undo stack empty. -/
theorem C2_undo_all_restores (b0 : List Nat) (c0 : Nat) (hc : c0 ≤ b0.length)
    (cmds : List EditCmd) :
    (undoRep (totalGroups (applyCmds (initState b0 c0) cmds))
        (applyCmds (initState b0 c0) cmds)).rope = b0 ∧
    (undoRep (totalGroups (applyCmds (initState b0 c0) cmds))
        (applyCmds (initState b0 c0) cmds)).caret = c0 ∧
    (undoRep (totalGroups (applyCmds (initState b0 c0) cmds))
        (applyCmds (initState b0 c0) cmds)).undoStack = [] ∧
    (undoRep (totalGroups (applyCmds (initState b0 c0) cmds))
        (applyCmds (initState b0 c0) cmds)).currentGroup = none :=
  undoRep_restores _ (applyCmds_inv cmds _ (initState_inv b0 c0 hc)) hc

/-- Witness for C2: buffer `"ab"`, caret 1; type two bytes, backspace one,
delete one forward (three commands, two time-coalesced groups); undoing
every pending unit restores `"ab"` and caret 1. -/
theorem C2_undo_all_restores_witness :
    (undoRep (totalGroups (applyCmds (initState [97, 98] 1)
        [.insertText [99, 100] 0, .deleteBack 1 500, .deleteFwd 1 2000]))
      (applyCmds (initState [97, 98] 1)
        [.insertText [99, 100] 0, .deleteBack 1 500, .deleteFwd 1 2000])).rope = [97, 98] ∧
    (undoRep (totalGroups (applyCmds (initState [97, 98] 1)
        [.insertText [99, 100] 0, .deleteBack 1 500, .deleteFwd 1 2000]))
      (applyCmds (initState [97, 98] 1)
        [.insertText [99, 100] 0, .deleteBack 1 500, .deleteFwd 1 2000])).caret = 1 ∧
    (undoRep (totalGroups (applyCmds (initState [97, 98] 1)
        [.insertText [99, 100] 0, .deleteBack 1 500, .deleteFwd 1 2000]))
      (applyCmds (initState [97, 98] 1)
        [.insertText [99, 100] 0, .deleteBack 1 500, .deleteFwd 1 2000])).undoStack = [] ∧
    (undoRep (totalGroups (applyCmds (initState [97, 98] 1)
        [.insertText [99, 100] 0, .deleteBack 1 500, .deleteFwd 1 2000]))
      (applyCmds (initState [97, 98] 1)
        [.insertText [99, 100] 0, .deleteBack 1 500, .deleteFwd 1 2000])).currentGroup = none :=
  C2_undo_all_restores [97, 98] 1 (by decide)
    [.insertText [99, 100] 0, .deleteBack 1 500, .deleteFwd 1 2000]

/-- C10: whenever `undo()` pops a group from the undo stack (after
finalizing the open group) or `redo()` pops a group from the redo stack,
the selection anchor is unconditionally cleared and the restored caret is
clamped to at most the buffer length in bytes. -/
theorem C10_pop_clears_selection_and_clamps (s : EState) :
    ((finalizeUndoGroup s).undoStack ≠ [] →
      (undo s).anchor = none ∧ (undo s).caret ≤ (undo s).rope.length) ∧
    (s.redoStack ≠ [] →
      (redo s).anchor = none ∧ (redo s).caret ≤ (redo s).rope.length) := by
  constructor
  · intro hne
    obtain ⟨g, hg⟩ := Option.isSome_iff_exists.mp (List.getLast?_isSome.mpr hne)
    have hu : undo s = undo (finalizeUndoGroup s) := (undo_finalize s).symm
    rw [hu]
    have hfin : finalizeUndoGroup (finalizeUndoGroup s) = finalizeUndoGroup s :=
      finalize_idem s
    simp only [undo, hfin, hg]
    exact ⟨trivial, Nat.min_le_right _ _⟩
  · intro hne
    obtain ⟨g, hg⟩ := Option.isSome_iff_exists.mp (List.getLast?_isSome.mpr hne)
    simp only [redo, hg]
    exact ⟨trivial, Nat.min_le_right _ _⟩

/-- Witness for C10: one stacked undo group and one stacked redo group
around buffer `"ab"` with a live selection; both pops clear the anchor and
clamp the caret. -/
theorem C10_pop_clears_selection_and_clamps_witness :
    ((finalizeUndoGroup
        ⟨[97, 98], 2, some 0, [⟨[(.insert 0 [97], 0, 1)], 0⟩],
          [⟨[(.insert 1 [98], 1, 2)], 0⟩], none, none, true⟩).undoStack ≠ [] →
      (undo ⟨[97, 98], 2, some 0, [⟨[(.insert 0 [97], 0, 1)], 0⟩],
          [⟨[(.insert 1 [98], 1, 2)], 0⟩], none, none, true⟩).anchor = none ∧
      (undo ⟨[97, 98], 2, some 0, [⟨[(.insert 0 [97], 0, 1)], 0⟩],
          [⟨[(.insert 1 [98], 1, 2)], 0⟩], none, none, true⟩).caret ≤
        (undo ⟨[97, 98], 2, some 0, [⟨[(.insert 0 [97], 0, 1)], 0⟩],
          [⟨[(.insert 1 [98], 1, 2)], 0⟩], none, none, true⟩).rope.length) ∧
    ((⟨[97, 98], 2, some 0, [⟨[(.insert 0 [97], 0, 1)], 0⟩],
          [⟨[(.insert 1 [98], 1, 2)], 0⟩], none, none, true⟩ : EState).redoStack ≠ [] →
      (redo ⟨[97, 98], 2, some 0, [⟨[(.insert 0 [97], 0, 1)], 0⟩],
          [⟨[(.insert 1 [98], 1, 2)], 0⟩], none, none, true⟩).anchor = none ∧
      (redo ⟨[97, 98], 2, some 0, [⟨[(.insert 0 [97], 0, 1)], 0⟩],
          [⟨[(.insert 1 [98], 1, 2)], 0⟩], none, none, true⟩).caret ≤
        (redo ⟨[97, 98], 2, some 0, [⟨[(.insert 0 [97], 0, 1)], 0⟩],
          [⟨[(.insert 1 [98], 1, 2)], 0⟩], none, none, true⟩).rope.length) :=
  C10_pop_clears_selection_and_clamps _

/-- C7: `push_op` finalizes-and-pushes the open group and starts a fresh
singleton group when more than one second elapsed since the last recorded
edit, and appends to the open group otherwise (always clearing the redo
stack and stamping the edit time); in particular typing `"ab"` (0 ms and
500 ms), pausing beyond one second, then typing `"c"` (2000 ms) produces
two undo groups, and a single `undo()` removes only `"c"`, leaving
`"ab"`. -/
theorem C7_time_coalesced_grouping :
    (∀ (s : EState) (now : Nat) (op : EditOp) (cb ca : Nat) (g : UndoGroup) (t : Nat),
      s.currentGroup = some g → s.lastEditTime = some t → 1000 < now - t →
        (pushOp s now op cb ca).undoStack = s.undoStack ++ [g] ∧
        (pushOp s now op cb ca).currentGroup = some ⟨[(op, cb, ca)], now⟩ ∧
        (pushOp s now op cb ca).redoStack = [] ∧
        (pushOp s now op cb ca).lastEditTime = some now) ∧
    (∀ (s : EState) (now : Nat) (op : EditOp) (cb ca : Nat) (g : UndoGroup) (t : Nat),
      s.currentGroup = some g → s.lastEditTime = some t → now - t ≤ 1000 →
        (pushOp s now op cb ca).undoStack = s.undoStack ∧
        (pushOp s now op cb ca).currentGroup =
          some ⟨g.ops ++ [(op, cb, ca)], g.timestamp⟩ ∧
        (pushOp s now op cb ca).redoStack = [] ∧
        (pushOp s now op cb ca).lastEditTime = some now) ∧
    (totalGroups (applyCmds (initState [] 0)
        [.insertText [97] 0, .insertText [98] 500, .insertText [99] 2000]) = 2 ∧
      (applyCmds (initState [] 0)
        [.insertText [97] 0, .insertText [98] 500, .insertText [99] 2000]).rope =
        [97, 98, 99] ∧
      (undoRep 1 (applyCmds (initState [] 0)
        [.insertText [97] 0, .insertText [98] 500, .insertText [99] 2000])).rope =
        [97, 98]) := by
  refine ⟨?_, ?_, by decide⟩
  · intro s now op cb ca g t hc hl hlt
    unfold pushOp
    rw [hl, hc]
    simp [hlt]
  · intro s now op cb ca g t hc hl hlt
    unfold pushOp
    rw [hl, hc]
    have hlt' : ¬ 1000 < now - t := by omega
    simp [hlt']

/-- Witness for C7: the grouping rules applied at a concrete state (an open
singleton group stamped at 0 ms) for a push at 2000 ms (new group) and a
push at 500 ms (append). -/
theorem C7_time_coalesced_grouping_witness :
    ((pushOp ⟨[97], 1, none, [], [], some ⟨[(.insert 0 [97], 0, 1)], 0⟩, some 0, true⟩
        2000 (.insert 1 [99]) 1 2).undoStack = [] ++ [⟨[(.insert 0 [97], 0, 1)], 0⟩] ∧
      (pushOp ⟨[97], 1, none, [], [], some ⟨[(.insert 0 [97], 0, 1)], 0⟩, some 0, true⟩
        2000 (.insert 1 [99]) 1 2).currentGroup =
          some ⟨[(.insert 1 [99], 1, 2)], 2000⟩ ∧
      (pushOp ⟨[97], 1, none, [], [], some ⟨[(.insert 0 [97], 0, 1)], 0⟩, some 0, true⟩
        2000 (.insert 1 [99]) 1 2).redoStack = [] ∧
      (pushOp ⟨[97], 1, none, [], [], some ⟨[(.insert 0 [97], 0, 1)], 0⟩, some 0, true⟩
        2000 (.insert 1 [99]) 1 2).lastEditTime = some 2000) ∧
    ((pushOp ⟨[97], 1, none, [], [], some ⟨[(.insert 0 [97], 0, 1)], 0⟩, some 0, true⟩
        500 (.insert 1 [98]) 1 2).undoStack = [] ∧
      (pushOp ⟨[97], 1, none, [], [], some ⟨[(.insert 0 [97], 0, 1)], 0⟩, some 0, true⟩
        500 (.insert 1 [98]) 1 2).currentGroup =
          some ⟨[(.insert 0 [97], 0, 1), (.insert 1 [98], 1, 2)], 0⟩ ∧
      (pushOp ⟨[97], 1, none, [], [], some ⟨[(.insert 0 [97], 0, 1)], 0⟩, some 0, true⟩
        500 (.insert 1 [98]) 1 2).redoStack = [] ∧
      (pushOp ⟨[97], 1, none, [], [], some ⟨[(.insert 0 [97], 0, 1)], 0⟩, some 0, true⟩
        500 (.insert 1 [98]) 1 2).lastEditTime = some 500) :=
  ⟨C7_time_coalesced_grouping.1 _ 2000 _ 1 2 ⟨[(.insert 0 [97], 0, 1)], 0⟩ 0
      rfl rfl (by decide),
   C7_time_coalesced_grouping.2.1 _ 500 _ 1 2 ⟨[(.insert 0 [97], 0, 1)], 0⟩ 0
      rfl rfl (by decide)⟩

/-- C4: for every recorded undo group (a valid trace from the pre-edit
rope to the current rope, sitting atop the undo stack with no open group),
`undo()` then `redo()` reproduces the post-edit buffer content exactly;
`redo` sets the caret to the `caret_after` of the group's last operation,
while `undo` had set it to the `caret_before` of the earliest operation. -/
theorem C4_undo_redo_roundtrip (s : EState) (g : UndoGroup) (gs : List UndoGroup)
    (bPre : List Nat) (x y : EditOp × Nat × Nat)
    (hcur : s.currentGroup = none)
    (hsplit : s.undoStack = gs ++ [g])
    (hvalid : ValidOps bPre g.ops s.rope)
    (hhead : g.ops.head? = some x)
    (hlastop : g.ops.getLast? = some y)
    (hbefore : x.2.1 ≤ bPre.length)
    (hafter : y.2.2 ≤ s.rope.length) :
    (undo s).rope = bPre ∧
    (undo s).caret = x.2.1 ∧
    (redo (undo s)).rope = s.rope ∧
    (redo (undo s)).caret = y.2.2 := by
  have hundo := undo_concat s gs g hcur hsplit
  have hrt := undoSeq_roundtrip hvalid s.caret
  rw [hhead] at hrt
  have hrt1 : (undoSeq (s.rope, s.caret) g.ops.reverse).1 = bPre := by rw [hrt]
  have hrt2 : (undoSeq (s.rope, s.caret) g.ops.reverse).2 = x.2.1 := by
    rw [hrt]; rfl
  have hurope : (undo s).rope = bPre := by rw [hundo]; exact hrt1
  have hucaret : (undo s).caret = x.2.1 := by
    rw [hundo]
    show min (undoSeq (s.rope, s.caret) g.ops.reverse).2
      (undoSeq (s.rope, s.caret) g.ops.reverse).1.length = x.2.1
    rw [hrt1, hrt2]
    omega
  have huredo : (undo s).redoStack = s.redoStack ++ [g] := by rw [hundo]
  have hgl : (undo s).redoStack.getLast? = some g := by
    rw [huredo]; simp
  have hrp := redoSeq_replay hvalid (undo s).caret
  rw [hlastop] at hrp
  have hrp1 : (redoSeq (bPre, (undo s).caret) g.ops).1 = s.rope := by rw [hrp]
  have hrp2 : (redoSeq (bPre, (undo s).caret) g.ops).2 = y.2.2 := by
    rw [hrp]; rfl
  have hseq : redoSeq ((undo s).rope, (undo s).caret) g.ops =
      redoSeq (bPre, (undo s).caret) g.ops := by rw [hurope]
  refine ⟨hurope, hucaret, ?_, ?_⟩
  · simp only [redo, hgl]
    rw [hseq]
    exact hrp1
  · simp only [redo, hgl]
    show min (redoSeq ((undo s).rope, (undo s).caret) g.ops).2
      (redoSeq ((undo s).rope, (undo s).caret) g.ops).1.length = y.2.2
    rw [hseq, hrp1, hrp2]
    omega

/-- Witness for C4: a one-op group (insert `"b"` at 1 in `"a"` → `"ab"`)
atop the stack; undo yields `"a"` with the recorded caret-before, redo
yields `"ab"` with the recorded caret-after. -/
theorem C4_undo_redo_roundtrip_witness :
    (undo ⟨[97, 98], 2, none, [⟨[(.insert 1 [98], 1, 2)], 0⟩], [], none, none, true⟩).rope
        = [97] ∧
    (undo ⟨[97, 98], 2, none, [⟨[(.insert 1 [98], 1, 2)], 0⟩], [], none, none, true⟩).caret
        = (EditOp.insert 1 [98], 1, 2).2.1 ∧
    (redo (undo ⟨[97, 98], 2, none,
        [⟨[(.insert 1 [98], 1, 2)], 0⟩], [], none, none, true⟩)).rope = [97, 98] ∧
    (redo (undo ⟨[97, 98], 2, none,
        [⟨[(.insert 1 [98], 1, 2)], 0⟩], [], none, none, true⟩)).caret
        = (EditOp.insert 1 [98], 1, 2).2.2 :=
  C4_undo_redo_roundtrip _ ⟨[(.insert 1 [98], 1, 2)], 0⟩ [] [97] _ _ rfl rfl
    (ValidOps.ins [97] 1 [98] 1 2 [] [97, 98] (by decide)
      (show ValidOps (listInsert [97] 1 [98]) [] [97, 98] from by
        have : listInsert [97] 1 [98] = [97, 98] := by decide
        rw [this]
        exact ValidOps.nil _))
    rfl rfl (by decide) (by decide)

/-! ## Indent (`Editor::indent`)

`char_to_line` of a byte boundary counts the newline bytes before it;
`line_to_char`/`char_to_byte` of a line index is the byte offset just after
that line's preceding newline. -/

/-- The line index of byte boundary `pos`: the number of newline bytes
(10) strictly before it. -/
def lineOfByte (b : List Nat) (pos : Nat) : Nat :=
  ((b.take pos).filter (fun c => c == 10)).length

/-- The byte offsets just after each newline byte. -/
def nlPositions (b : List Nat) : List Nat :=
  ((List.range b.length).filter (fun j => b.getD j 0 == 10)).map (· + 1)

/-- The byte offset of the start of line `i` (0 for line 0, else one past
the `i`-th newline). -/
def lineStartByte (b : List Nat) (i : Nat) : Nat :=
  (0 :: nlPositions b).getD i b.length

theorem lineStartByte_le (b : List Nat) (i : Nat) : lineStartByte b i ≤ b.length := by
  unfold lineStartByte
  have hmem : ∀ x ∈ (0 :: nlPositions b), x ≤ b.length := by
    intro x hx
    rcases List.mem_cons.mp hx with h0 | h0
    · omega
    · unfold nlPositions at h0
      obtain ⟨j, hj, rfl⟩ := List.mem_map.mp h0
      have := List.mem_range.mp (List.mem_filter.mp hj).1
      omega
  rw [List.getD_eq_getElem?_getD]
  cases hg : (0 :: nlPositions b)[i]? with
  | none => simp
  | some x =>
    simp only [Option.getD_some]
    exact hmem x (List.getElem?_mem hg)

theorem lineOfByte_mono (b : List Nat) (p q : Nat) (h : p ≤ q) :
    lineOfByte b p ≤ lineOfByte b q := by
  unfold lineOfByte
  have htake : b.take p = (b.take q).take p := by
    rw [List.take_take, min_eq_left h]
  rw [htake]
  exact List.Sublist.length_le (List.Sublist.filter _ (List.take_sublist _ _))

/-- Four spaces, as bytes. -/
def spaces4 : List Nat := [32, 32, 32, 32]

/-- One iteration of `indent`'s selection loop: insert four spaces at the
current start of line `lineIdx`, accumulate the caret/anchor adjustments
(`self.caret >= line_byte`, `anchor >= line_byte`), and record the op via
`push_op` with the command's start caret as both recorded carets (the
caret field is only adjusted after the loop). -/
def indentStep (t : Nat) (acc : EState × Nat × Nat) (lineIdx : Nat) :
    EState × Nat × Nat :=
  let s := acc.1
  let lineByte := lineStartByte s.rope lineIdx
  (pushOp { s with rope := listInsert s.rope lineByte spaces4 } t
      (.insert lineByte spaces4) s.caret s.caret,
   acc.2.1 + (if lineByte ≤ s.caret then 4 else 0),
   acc.2.2 +
     (match s.anchor with
      | some a => if lineByte ≤ a then 4 else 0
      | none => 0))

/-- `Editor::indent`: with a selection, insert four spaces at the start of
every selected line, processing lines from last to first, then shift caret
and anchor by the accumulated adjustments; with no selection, indent the
caret's line only. -/
def indent (s : EState) (t : Nat) : EState :=
  match s.anchor with
  | some a =>
    let st := min a s.caret
    let en := max a s.caret
    let startLine := lineOfByte s.rope st
    let endLine := lineOfByte s.rope en
    let res := ((List.range' startLine (endLine + 1 - startLine)).reverse).foldl
      (indentStep t) (s, 0, 0)
    { res.1 with
      caret := res.1.caret + res.2.1
      anchor :=
        match res.1.anchor with
        | some a2 => some (a2 + res.2.2)
        | none => none }
  | none =>
    let lineByte := lineStartByte s.rope (lineOfByte s.rope s.caret)
    let caret' := if lineByte ≤ s.caret then s.caret + 4 else s.caret
    pushOp { s with rope := listInsert s.rope lineByte spaces4, caret := caret' } t
      (.insert lineByte spaces4) s.caret caret'

theorem pushOp_fresh (s : EState) (now : Nat) (op : EditOp) (cb ca : Nat)
    (hc : s.currentGroup = none) (hl : s.lastEditTime = none) :
    pushOp s now op cb ca =
      { s with
        currentGroup := some ⟨[(op, cb, ca)], now⟩
        redoStack := []
        lastEditTime := some now
        modified := true } := by
  unfold pushOp
  rw [hl, hc]
  simp

theorem pushOp_append_same (s : EState) (now : Nat) (op : EditOp) (cb ca : Nat)
    (g : UndoGroup) (t : Nat) (hc : s.currentGroup = some g)
    (hl : s.lastEditTime = some t) (hle : now - t ≤ 1000) :
    pushOp s now op cb ca =
      { s with
        currentGroup := some ⟨g.ops ++ [(op, cb, ca)], g.timestamp⟩
        redoStack := []
        lastEditTime := some now
        modified := true } := by
  unfold pushOp
  rw [hl, hc]
  have hlt : ¬ 1000 < now - t := by omega
  simp [hlt]

/-- The selection loop of `indent`, run with an open group stamped at the
same instant: every iteration appends one in-bounds four-space insert to
the open group, leaving caret, anchor and undo stack untouched. -/
theorem indentLoop_spec (t : Nat) (idxs : List Nat) :
    ∀ (s : EState) (ca aa : Nat) (g : UndoGroup),
      s.currentGroup = some g → s.lastEditTime = some t →
      ∃ newOps : List (EditOp × Nat × Nat),
        (idxs.foldl (indentStep t) (s, ca, aa)).1.currentGroup =
          some ⟨g.ops ++ newOps, g.timestamp⟩ ∧
        (idxs.foldl (indentStep t) (s, ca, aa)).1.lastEditTime = some t ∧
        (idxs.foldl (indentStep t) (s, ca, aa)).1.caret = s.caret ∧
        (idxs.foldl (indentStep t) (s, ca, aa)).1.anchor = s.anchor ∧
        (idxs.foldl (indentStep t) (s, ca, aa)).1.undoStack = s.undoStack ∧
        ValidOps s.rope newOps (idxs.foldl (indentStep t) (s, ca, aa)).1.rope ∧
        (∀ x ∈ newOps, x.2.1 = s.caret) ∧
        newOps.length = idxs.length ∧
        (∀ x ∈ newOps, ∃ p, x.1 = EditOp.insert p spaces4) := by
  induction idxs with
  | nil =>
    intro s ca aa g hc hl
    refine ⟨[], ?_, hl, rfl, rfl, rfl, ValidOps.nil _, by simp, rfl, by simp⟩
    show s.currentGroup = some ⟨g.ops ++ [], g.timestamp⟩
    rw [hc]
    simp
  | cons i rest ih =>
    intro s ca aa g hc hl
    rw [List.foldl_cons]
    have hstep : indentStep t (s, ca, aa) i =
        ({ s with
            rope := listInsert s.rope (lineStartByte s.rope i) spaces4
            currentGroup := some ⟨g.ops ++
              [(EditOp.insert (lineStartByte s.rope i) spaces4, s.caret, s.caret)],
              g.timestamp⟩
            redoStack := []
            lastEditTime := some t
            modified := true },
         ca + (if lineStartByte s.rope i ≤ s.caret then 4 else 0),
         aa +
           (match s.anchor with
            | some a => if lineStartByte s.rope i ≤ a then 4 else 0
            | none => 0)) := by
      have hc' : ({ s with
          rope := listInsert s.rope (lineStartByte s.rope i) spaces4 } :
          EState).currentGroup = some g := hc
      have hl' : ({ s with
          rope := listInsert s.rope (lineStartByte s.rope i) spaces4 } :
          EState).lastEditTime = some t := hl
      simp only [indentStep]
      rw [pushOp_append_same _ t _ s.caret s.caret g t hc' hl' (by omega)]
    rw [hstep]
    obtain ⟨newOps1, h1, h2, h3, h4, h5, h6, h7, h8, h9⟩ :=
      ih { s with
            rope := listInsert s.rope (lineStartByte s.rope i) spaces4
            currentGroup := some ⟨g.ops ++
              [(EditOp.insert (lineStartByte s.rope i) spaces4, s.caret, s.caret)],
              g.timestamp⟩
            redoStack := []
            lastEditTime := some t
            modified := true }
        (ca + (if lineStartByte s.rope i ≤ s.caret then 4 else 0))
        (aa +
          (match s.anchor with
           | some a => if lineStartByte s.rope i ≤ a then 4 else 0
           | none => 0))
        ⟨g.ops ++
          [(EditOp.insert (lineStartByte s.rope i) spaces4, s.caret, s.caret)],
          g.timestamp⟩ rfl rfl
    refine ⟨(EditOp.insert (lineStartByte s.rope i) spaces4, s.caret, s.caret)
        :: newOps1, ?_, h2, h3, h4, h5, ?_, ?_, ?_, ?_⟩
    · rw [h1]
      simp
    · exact ValidOps.ins s.rope _ spaces4 s.caret s.caret newOps1 _
        (lineStartByte_le s.rope i) h6
    · intro x hx
      rcases List.mem_cons.mp hx with hx | hx
      · rw [hx]
      · exact h7 x hx
    · simp [h8]
    · intro x hx
      rcases List.mem_cons.mp hx with hx | hx
      · exact ⟨lineStartByte s.rope i, by rw [hx]⟩
      · exact h9 x hx

/-- C5 (amended): with any selection present and no prior open undo group
or recent edit, `indent` inserts four spaces at the start of each selected
line, recording one insert per line; the insertions coalesce into the one
open group (by the time window, not by finalize boundaries), so a single
`undo()` removes all the inserted spaces, restores the original buffer and
caret — but clears the selection anchor rather than restoring it. -/
theorem C5_indent_selection_one_undo (s : EState) (t a : Nat)
    (hanchor : s.anchor = some a)
    (hcaret : s.caret ≤ s.rope.length)
    (hcur : s.currentGroup = none) (hlast : s.lastEditTime = none) :
    (indent s t).undoStack = s.undoStack ∧
    (∃ G : UndoGroup, (indent s t).currentGroup = some G ∧
      G.ops.length =
        lineOfByte s.rope (max a s.caret) + 1 - lineOfByte s.rope (min a s.caret) ∧
      ∀ x ∈ G.ops, ∃ p, x.1 = EditOp.insert p spaces4) ∧
    (undo (indent s t)).rope = s.rope ∧
    (undo (indent s t)).caret = s.caret ∧
    (undo (indent s t)).anchor = none ∧
    (undo (indent s t)).undoStack = s.undoStack ∧
    (undo (indent s t)).currentGroup = none := by
  have hmono : lineOfByte s.rope (min a s.caret) ≤ lineOfByte s.rope (max a s.caret) :=
    lineOfByte_mono s.rope _ _ (by omega)
  set startLine := lineOfByte s.rope (min a s.caret) with hsl
  set endLine := lineOfByte s.rope (max a s.caret) with hel
  have hlenpos : 1 ≤ (List.range' startLine (endLine + 1 - startLine)).reverse.length := by
    rw [List.length_reverse, List.length_range']
    omega
  obtain ⟨i0, rest, hidxs⟩ :
      ∃ i0 rest, (List.range' startLine (endLine + 1 - startLine)).reverse = i0 :: rest := by
    cases hco : (List.range' startLine (endLine + 1 - startLine)).reverse with
    | nil => rw [hco] at hlenpos; simp at hlenpos
    | cons y l => exact ⟨y, l, rfl⟩
  have hind : indent s t =
      { ((i0 :: rest).foldl (indentStep t) (s, 0, 0)).1 with
        caret := ((i0 :: rest).foldl (indentStep t) (s, 0, 0)).1.caret +
          ((i0 :: rest).foldl (indentStep t) (s, 0, 0)).2.1
        anchor :=
          match ((i0 :: rest).foldl (indentStep t) (s, 0, 0)).1.anchor with
          | some a2 => some (a2 + ((i0 :: rest).foldl (indentStep t) (s, 0, 0)).2.2)
          | none => none } := by
    simp only [indent, hanchor, ← hsl, ← hel, hidxs]
  set x0 : EditOp × Nat × Nat :=
    (EditOp.insert (lineStartByte s.rope i0) spaces4, s.caret, s.caret) with hx0
  have hstep0 : indentStep t (s, 0, 0) i0 =
      ({ s with
          rope := listInsert s.rope (lineStartByte s.rope i0) spaces4
          currentGroup := some ⟨[x0], t⟩
          redoStack := []
          lastEditTime := some t
          modified := true },
       0 + (if lineStartByte s.rope i0 ≤ s.caret then 4 else 0),
       0 +
         (match s.anchor with
          | some a2 => if lineStartByte s.rope i0 ≤ a2 then 4 else 0
          | none => 0)) := by
    have hc' : ({ s with
        rope := listInsert s.rope (lineStartByte s.rope i0) spaces4 } :
        EState).currentGroup = none := hcur
    have hl' : ({ s with
        rope := listInsert s.rope (lineStartByte s.rope i0) spaces4 } :
        EState).lastEditTime = none := hlast
    simp only [indentStep]
    rw [pushOp_fresh _ t _ s.caret s.caret hc' hl']
  obtain ⟨newOps1, h1, h2, h3, h4, h5, h6, h7, h8, h9⟩ :=
    indentLoop_spec t rest
      { s with
        rope := listInsert s.rope (lineStartByte s.rope i0) spaces4
        currentGroup := some ⟨[x0], t⟩
        redoStack := []
        lastEditTime := some t
        modified := true }
      (0 + (if lineStartByte s.rope i0 ≤ s.caret then 4 else 0))
      (0 +
        (match s.anchor with
         | some a2 => if lineStartByte s.rope i0 ≤ a2 then 4 else 0
         | none => 0))
      ⟨[x0], t⟩ rfl rfl
  have hfold : (i0 :: rest).foldl (indentStep t) (s, 0, 0) =
      rest.foldl (indentStep t) (indentStep t (s, 0, 0) i0) := List.foldl_cons ..
  rw [hstep0] at hfold
  set res := rest.foldl (indentStep t)
    ({ s with
        rope := listInsert s.rope (lineStartByte s.rope i0) spaces4
        currentGroup := some ⟨[x0], t⟩
        redoStack := []
        lastEditTime := some t
        modified := true },
     0 + (if lineStartByte s.rope i0 ≤ s.caret then 4 else 0),
     0 +
       (match s.anchor with
        | some a2 => if lineStartByte s.rope i0 ≤ a2 then 4 else 0
        | none => 0)) with hres
  have hGdef : res.1.currentGroup = some ⟨x0 :: newOps1, t⟩ := by
    rw [h1]
    simp
  have hvalid : ValidOps s.rope (x0 :: newOps1) res.1.rope :=
    ValidOps.ins s.rope _ spaces4 s.caret s.caret newOps1 _
      (lineStartByte_le s.rope i0) h6
  have hindrec : indent s t =
      { res.1 with
        caret := res.1.caret + res.2.1
        anchor :=
          match res.1.anchor with
          | some a2 => some (a2 + res.2.2)
          | none => none } := by
    rw [hind, hfold]
  have hindstack : (indent s t).undoStack = s.undoStack := by
    rw [hindrec]
    exact h5
  have hindcur : (indent s t).currentGroup = some ⟨x0 :: newOps1, t⟩ := by
    rw [hindrec]
    exact hGdef
  have hindrope : (indent s t).rope = res.1.rope := by rw [hindrec]
  have hne : (x0 :: newOps1 : List (EditOp × Nat × Nat)) ≠ [] := by simp
  have hfinstack : (finalizeUndoGroup (indent s t)).undoStack =
      s.undoStack ++ [⟨x0 :: newOps1, t⟩] := by
    unfold finalizeUndoGroup
    rw [hindcur]
    simp [hindstack]
  have hfincur : (finalizeUndoGroup (indent s t)).currentGroup = none :=
    (finalize_fields _).2.2
  have hfinrope : (finalizeUndoGroup (indent s t)).rope = (indent s t).rope :=
    (finalize_fields _).1
  have hfincaret : (finalizeUndoGroup (indent s t)).caret = (indent s t).caret :=
    (finalize_fields _).2.1
  have hundo := undo_concat (finalizeUndoGroup (indent s t)) s.undoStack
    ⟨x0 :: newOps1, t⟩ hfincur hfinstack
  have huf : undo (indent s t) = undo (finalizeUndoGroup (indent s t)) :=
    (undo_finalize _).symm
  have hrt := undoSeq_roundtrip hvalid (finalizeUndoGroup (indent s t)).caret
  have hops : (⟨x0 :: newOps1, t⟩ : UndoGroup).ops = x0 :: newOps1 := rfl
  have hseqarg : undoSeq ((finalizeUndoGroup (indent s t)).rope,
      (finalizeUndoGroup (indent s t)).caret)
      (⟨x0 :: newOps1, t⟩ : UndoGroup).ops.reverse =
      (s.rope, s.caret) := by
    rw [hops, hfinrope, hindrope, hrt]
    rfl
  refine ⟨hindstack, ⟨⟨x0 :: newOps1, t⟩, hindcur, ?_, ?_⟩, ?_, ?_, ?_, ?_, ?_⟩
  · show (x0 :: newOps1).length = endLine + 1 - startLine
    have : rest.length + 1 = endLine + 1 - startLine := by
      have := congrArg List.length hidxs
      rw [List.length_reverse, List.length_range'] at this
      simp at this
      omega
    simp [h8]
    omega
  · intro x hx
    rcases List.mem_cons.mp hx with hx | hx
    · exact ⟨lineStartByte s.rope i0, by rw [hx]⟩
    · exact h9 x hx
  · rw [huf, hundo]
    show (undoSeq ((finalizeUndoGroup (indent s t)).rope,
      (finalizeUndoGroup (indent s t)).caret)
      (⟨x0 :: newOps1, t⟩ : UndoGroup).ops.reverse).1 = s.rope
    rw [hseqarg]
  · rw [huf, hundo]
    show min (undoSeq ((finalizeUndoGroup (indent s t)).rope,
        (finalizeUndoGroup (indent s t)).caret)
        (⟨x0 :: newOps1, t⟩ : UndoGroup).ops.reverse).2
      (undoSeq ((finalizeUndoGroup (indent s t)).rope,
        (finalizeUndoGroup (indent s t)).caret)
        (⟨x0 :: newOps1, t⟩ : UndoGroup).ops.reverse).1.length = s.caret
    rw [hseqarg]
    show min s.caret s.rope.length = s.caret
    omega
  · rw [huf, hundo]
  · rw [huf, hundo]
  · rw [huf, hundo]
    exact hfincur

/-- C5 counterexample: on buffer `"a\nb"` with the two lines selected
(anchor 0, caret 3), `indent` then one `undo()` clears the selection
anchor instead of restoring it.  Moreover the indent insertions are not
separated from adjacent typing by finalize boundaries: typing `"x"` at
0 ms and indenting at 500 ms yields a single undo unit, and one `undo()`
removes the typed byte together with the inserted spaces. -/
theorem C5_counterexample :
    (undo (indent ⟨[97, 10, 98], 3, some 0, [], [], none, none, false⟩ 0)).anchor
        = none ∧
    (⟨[97, 10, 98], 3, some 0, [], [], none, none, false⟩ : EState).anchor
        = some 0 ∧
    totalGroups (indent ⟨[120, 97, 10, 98], 1, some 4, [], [],
        some ⟨[(.insert 0 [120], 0, 1)], 0⟩, some 0, true⟩ 500) = 1 ∧
    (undo (indent ⟨[120, 97, 10, 98], 1, some 4, [], [],
        some ⟨[(.insert 0 [120], 0, 1)], 0⟩, some 0, true⟩ 500)).rope
        = [97, 10, 98] := by
  decide

/-- Witness for C5: buffer `"a\nb"`, anchor 0, caret 3 (two selected
lines), indent at 0 ms from a quiescent history: the amended claim's
conclusions at this input. -/
theorem C5_indent_selection_one_undo_witness :
    (indent ⟨[97, 10, 98], 3, some 0, [], [], none, none, false⟩ 0).undoStack = [] ∧
    (∃ G : UndoGroup,
      (indent ⟨[97, 10, 98], 3, some 0, [], [], none, none, false⟩ 0).currentGroup
          = some G ∧
      G.ops.length = lineOfByte [97, 10, 98] (max 0 3) + 1 -
        lineOfByte [97, 10, 98] (min 0 3) ∧
      ∀ x ∈ G.ops, ∃ p, x.1 = EditOp.insert p spaces4) ∧
    (undo (indent ⟨[97, 10, 98], 3, some 0, [], [], none, none, false⟩ 0)).rope
        = [97, 10, 98] ∧
    (undo (indent ⟨[97, 10, 98], 3, some 0, [], [], none, none, false⟩ 0)).caret
        = 3 ∧
    (undo (indent ⟨[97, 10, 98], 3, some 0, [], [], none, none, false⟩ 0)).anchor
        = none ∧
    (undo (indent ⟨[97, 10, 98], 3, some 0, [], [], none, none, false⟩ 0)).undoStack
        = [] ∧
    (undo (indent ⟨[97, 10, 98], 3, some 0, [], [], none, none, false⟩ 0)).currentGroup
        = none :=
  C5_indent_selection_one_undo ⟨[97, 10, 98], 3, some 0, [], [], none, none, false⟩
    0 0 rfl (by decide) rfl rfl

/-! ## Layout engine (`Editor::rebuild_visual_lines`), word wrap disabled

`rope.len_lines`/`rope.line(i)` follow ropey's semantics: lines split
after every newline byte, each line keeping its trailing newline, with a
final (possibly empty) line after the last newline.  With word wrap off,
each logical line becomes one `VisualLine` whose byte range excludes the
trailing newline. -/

/-- A visual line: a half-open byte range of the buffer rendered as one
screen row. -/
structure VisualLine where
  start_byte : Nat
  end_byte : Nat
  is_continuation : Bool
  indent : Nat
  logical_line : Nat
  deriving DecidableEq, Repr

/-- ropey's line decomposition: split after every newline byte; the last
line (possibly empty) has no trailing newline. -/
def splitLines : List Nat → List (List Nat)
  | [] => [[]]
  | c :: rest =>
    if c = 10 then [10] :: splitLines rest
    else
      match splitLines rest with
      | [] => [[c]]
      | h :: t => (c :: h) :: t

theorem splitLines_ne_nil (b : List Nat) : splitLines b ≠ [] := by
  cases b with
  | nil => simp [splitLines]
  | cons c rest =>
    unfold splitLines
    by_cases hc : c = 10
    · simp [hc]
    · simp only [hc, if_false]
      cases splitLines rest with
      | nil => simp
      | cons h t => simp

theorem splitLines_flatten (b : List Nat) : (splitLines b).flatten = b := by
  induction b with
  | nil => rfl
  | cons c rest ih =>
    unfold splitLines
    by_cases hc : c = 10
    · simp only [hc, if_pos rfl]
      simp [ih, hc]
    · simp only [hc, if_false]
      cases hsp : splitLines rest with
      | nil => exact absurd hsp (splitLines_ne_nil rest)
      | cons h t =>
        rw [hsp] at ih
        simp at ih ⊢
        exact ih

theorem splitLines_interior (b : List Nat) :
    ∀ l ∈ splitLines b, ∀ c ∈ l.dropLast, c ≠ 10 := by
  induction b with
  | nil =>
    intro l hl
    simp [splitLines] at hl
    simp [hl]
  | cons c rest ih =>
    intro l hl
    unfold splitLines at hl
    by_cases hc : c = 10
    · simp only [hc, if_pos rfl] at hl
      rcases List.mem_cons.mp hl with h0 | h0
      · simp [h0]
      · exact ih l h0
    · simp only [hc, if_false] at hl
      cases hsp : splitLines rest with
      | nil => exact absurd hsp (splitLines_ne_nil rest)
      | cons h t =>
        rw [hsp] at hl
        rcases List.mem_cons.mp hl with h0 | h0
        · subst h0
          intro x hx
          cases h with
          | nil => simp at hx
          | cons y ys =>
            rw [List.dropLast_cons₂] at hx
            rcases List.mem_cons.mp hx with h1 | h1
            · rw [h1]; exact hc
            · exact ih (y :: ys) (by rw [hsp]; exact List.mem_cons_self _ _) x h1
        · exact ih l (by rw [hsp]; exact List.mem_cons_of_mem _ h0)

/-- The per-line loop of `rebuild_visual_lines` with word wrap disabled:
one `VisualLine` per logical line, its byte range excluding the trailing
newline (`end = byte_pos + line_bytes − 1` when the line ends with a
newline). -/
def visualLinesNoWrapGo (bytePos lineIdx : Nat) :
    List (List Nat) → List (Option VisualLine)
  | [] => []
  | line :: rest =>
    some ⟨bytePos,
      bytePos + (line.length - (if line.getLast? = some 10 then 1 else 0)),
      false, 0, lineIdx⟩ ::
    visualLinesNoWrapGo (bytePos + line.length) (lineIdx + 1) rest

/-- `rebuild_visual_lines` with word wrap disabled: `virtual_lines`
sentinel rows, one `VisualLine` per logical line, `virtual_lines`
sentinel rows. -/
def visualLinesNoWrap (b : List Nat) (virtualCount : Nat) : List (Option VisualLine) :=
  List.replicate virtualCount none ++
    visualLinesNoWrapGo 0 0 (splitLines b) ++
    List.replicate virtualCount none

/-- The concatenation, in order, of the byte ranges of the non-virtual
visual lines. -/
def concatNonVirtual (b : List Nat) (vls : List (Option VisualLine)) : List Nat :=
  ((vls.filterMap id).map (fun vl => sliceL b vl.start_byte vl.end_byte)).flatten

theorem sliceL_append_middle (pfx l sfx : List Nat) (k : Nat) (hk : k ≤ l.length) :
    sliceL (pfx ++ (l ++ sfx)) pfx.length (pfx.length + k) = l.take k := by
  rw [sliceL_eq_take_drop, List.drop_left, List.take_append_eq_append_take]
  have h0 : k - l.length = 0 := by omega
  rw [h0]
  simp

theorem concatNonVirtual_cons_some (b : List Nat) (vl : VisualLine)
    (xs : List (Option VisualLine)) :
    concatNonVirtual b (some vl :: xs) =
      sliceL b vl.start_byte vl.end_byte ++ concatNonVirtual b xs := by
  simp [concatNonVirtual]

theorem concatNonVirtual_append (b : List Nat) (xs ys : List (Option VisualLine)) :
    concatNonVirtual b (xs ++ ys) = concatNonVirtual b xs ++ concatNonVirtual b ys := by
  simp [concatNonVirtual]

theorem concatNonVirtual_replicate_none (b : List Nat) (n : Nat) :
    concatNonVirtual b (List.replicate n none) = [] := by
  induction n with
  | zero => rfl
  | succ m ih =>
    rw [List.replicate_succ]
    simp only [concatNonVirtual, List.filterMap_cons] at ih ⊢
    exact ih

/-- The row loop of the no-wrap rebuild: the concatenated slices of the
produced rows are the processed lines' bytes with each line-terminating
newline removed. -/
theorem goNoWrap_concat (lines : List (List Nat)) :
    ∀ (pfx : List Nat) (li : Nat),
      (∀ l ∈ lines, ∀ c ∈ l.dropLast, c ≠ 10) →
      concatNonVirtual (pfx ++ lines.flatten)
        (visualLinesNoWrapGo pfx.length li lines) =
      lines.flatten.filter (fun c => decide (c ≠ 10)) := by
  induction lines with
  | nil =>
    intro pfx li hok
    simp [concatNonVirtual, visualLinesNoWrapGo]
  | cons l rest ih =>
    intro pfx li hok
    have hflat : (l :: rest).flatten = l ++ rest.flatten := by simp
    rw [hflat]
    show concatNonVirtual (pfx ++ (l ++ rest.flatten))
        (some ⟨pfx.length,
          pfx.length + (l.length - (if l.getLast? = some 10 then 1 else 0)),
          false, 0, li⟩ ::
        visualLinesNoWrapGo (pfx.length + l.length) (li + 1) rest) = _
    rw [concatNonVirtual_cons_some]
    have hslice : sliceL (pfx ++ (l ++ rest.flatten)) pfx.length
        (pfx.length + (l.length - (if l.getLast? = some 10 then 1 else 0))) =
        l.take (l.length - (if l.getLast? = some 10 then 1 else 0)) :=
      sliceL_append_middle pfx l rest.flatten _ (by omega)
    have hl1 : l.take (l.length - (if l.getLast? = some 10 then 1 else 0)) =
        l.filter (fun c => decide (c ≠ 10)) := by
      have hdl : ∀ c ∈ l.dropLast, c ≠ 10 := hok l (List.mem_cons_self _ _)
      by_cases hlast : l.getLast? = some 10
      · rw [if_pos hlast]
        rw [← List.dropLast_eq_take]
        obtain ⟨hlne⟩ : l ≠ [] ∧ True := by
          refine ⟨?_, trivial⟩
          intro hco
          rw [hco] at hlast
          exact absurd hlast (by simp)
        have hsplit : l.dropLast ++ [l.getLast hlne] = l :=
          List.dropLast_append_getLast hlne
        conv_rhs => rw [← hsplit]
        rw [List.filter_append]
        have h10 : l.getLast hlne = 10 := by
          have := List.getLast?_eq_getLast l hlne
          rw [hlast] at this
          exact (Option.some.inj this).symm
        rw [List.filter_eq_self.mpr (by
          intro c hc
          simpa using hdl c hc)]
        simp [h10]
      · rw [if_neg hlast]
        simp only [Nat.sub_zero, List.take_length]
        rcases List.eq_nil_or_concat l with hnil | ⟨l0, x, hcon⟩
        · simp [hnil]
        · rw [List.concat_eq_append] at hcon
          have hx : x ≠ 10 := by
            intro hco
            rw [hcon, List.getLast?_concat, hco] at hlast
            exact hlast rfl
          rw [List.filter_eq_self.mpr ?_]
          intro c hc
          rw [hcon] at hc
          rcases List.mem_append.mp hc with h0 | h0
          · have : c ∈ l.dropLast := by
              rw [hcon, List.dropLast_concat]
              exact h0
            simpa using hdl c this
          · simp at h0
            simpa [h0] using hx
    have hrec : concatNonVirtual (pfx ++ (l ++ rest.flatten))
        (visualLinesNoWrapGo (pfx.length + l.length) (li + 1) rest) =
        rest.flatten.filter (fun c => decide (c ≠ 10)) := by
      have hlen : pfx.length + l.length = (pfx ++ l).length := by simp
      have hass : pfx ++ (l ++ rest.flatten) = (pfx ++ l) ++ rest.flatten := by
        simp
      rw [hlen, hass]
      exact ih (pfx ++ l) (li + 1)
        (fun l' hl' => hok l' (List.mem_cons_of_mem _ hl'))
    rw [hslice, hrec, hl1, List.filter_append]

/-- C3 counterexample: with word wrap disabled (the claim quantifies over
the wrap setting) and buffer `"a\nb"`, the two non-virtual rows cover
`[0,1)` and `[2,3)`; their concatenation is `"ab"`, not `"a\nb"` — the
newline byte is in no row's range, a gap. -/
theorem C3_counterexample :
    concatNonVirtual [97, 10, 98] (visualLinesNoWrap [97, 10, 98] 2) = [97, 98] ∧
    concatNonVirtual [97, 10, 98] (visualLinesNoWrap [97, 10, 98] 2) ≠
      [97, 10, 98] := by
  decide

/-- C3 (amended): with word wrap disabled, for every buffer content and
virtual-line count, concatenating the byte ranges of all non-virtual
VisualLines in order reconstructs the buffer content with the
line-terminating newline bytes omitted — no other gaps and no overlap
(with wrap enabled, spaces skipped at wrap break points are additionally
omitted). -/
theorem C3_concat_is_content_minus_newlines (b : List Nat) (virtualCount : Nat) :
    concatNonVirtual b (visualLinesNoWrap b virtualCount) =
      b.filter (fun c => decide (c ≠ 10)) := by
  unfold visualLinesNoWrap
  rw [concatNonVirtual_append, concatNonVirtual_append,
    concatNonVirtual_replicate_none]
  rw [List.append_nil, List.nil_append]
  have hmain := goNoWrap_concat (splitLines b) [] 0 (splitLines_interior b)
  rw [splitLines_flatten] at hmain
  simpa using hmain

/-! ## Word wrap (`Editor::wrap_line`)

The wrap algorithm consumes the character sequence of a logical line
together with each character's terminal display width (`.width()`, the
Unicode East-Asian-width table, modelled as a per-character datum `w`)
and UTF-8 byte length (`len_utf8`).  Byte positions in the emitted
segments are the starting offset plus the UTF-8 sizes of the consumed
characters, exactly as the source computes them by walking
`content[start..].chars()`. -/

/-- A character as `wrap_line` observes it: its identity (for the soft
break and space tests) and its display width. -/
structure WChar where
  c : Char
  w : Nat
  deriving DecidableEq, Repr

/-- `len_utf8` of the character. -/
def blen (wc : WChar) : Nat := wc.c.utf8Size

/-- Byte length of a run of characters. -/
def sumBlen (l : List WChar) : Nat := (l.map blen).sum

/-- Display width of a run of characters. -/
def segWidth (l : List WChar) : Nat := (l.map WChar.w).sum

/-- The soft-break test: space, hyphen or slash. -/
def isSoftBreak (wc : WChar) : Bool :=
  wc.c == ' ' || wc.c == '-' || wc.c == '/'

/-- The inner scan of `wrap_line`: walk the remaining characters
accumulating display width (`width`), the count of accepted characters
(`cnt`, the source's `char_offset`), and the character count of the last
soft-break position after the segment start (`lastB`; `0` = none, the
source's `last_break == start`).  When the next character would exceed the
available width and at least one character is accepted, break at the last
soft break if any, else exactly at the overflowing boundary; return the
number of characters in the segment. -/
def scanSegGo (available : Nat) : List WChar → Nat → Nat → Nat → Nat
  | [], _, cnt, _ => cnt
  | ch :: rest, width, cnt, lastB =>
    if available < width + ch.w ∧ 0 < cnt then
      if 0 < lastB then lastB else cnt
    else
      scanSegGo available rest (width + ch.w) (cnt + 1)
        (if isSoftBreak ch then cnt + 1 else lastB)

/-- The number of characters `wrap_line` puts in the next segment. -/
def scanSeg (available : Nat) (suffix : List WChar) : Nat :=
  scanSegGo available suffix 0 0 0

theorem scanSegGo_pos (available : Nat) (suffix : List WChar) :
    ∀ width cnt lastB, 1 ≤ cnt → lastB ≤ cnt →
      1 ≤ scanSegGo available suffix width cnt lastB := by
  induction suffix with
  | nil => intro width cnt lastB h1 h2; exact h1
  | cons ch rest ih =>
    intro width cnt lastB h1 h2
    unfold scanSegGo
    by_cases hbr : available < width + ch.w ∧ 0 < cnt
    · rw [if_pos hbr]
      by_cases hl : 0 < lastB
      · rw [if_pos hl]; omega
      · rw [if_neg hl]; exact h1
    · rw [if_neg hbr]
      exact ih _ _ _ (by omega) (by split <;> omega)

theorem scanSeg_pos (available : Nat) (suffix : List WChar) (h : suffix ≠ []) :
    1 ≤ scanSeg available suffix := by
  cases suffix with
  | nil => exact absurd rfl h
  | cons ch rest =>
    unfold scanSeg scanSegGo
    simp only [Nat.lt_irrefl, and_false, false_and, if_false]
    exact scanSegGo_pos available rest _ _ _ (by omega) (by split <;> omega)

/-- The core width bound of the inner scan: the characters the scan places
in the segment, beyond those already accepted, fit in the available width
together with the accepted width — unless the segment is a single
(over-wide) character. -/
theorem scanSegGo_width (available : Nat) (suffix : List WChar) :
    ∀ width cnt lastB, lastB ≤ cnt → (width ≤ available ∨ cnt ≤ 1) →
      width + segWidth (suffix.take (scanSegGo available suffix width cnt lastB - cnt))
          ≤ available ∨
        scanSegGo available suffix width cnt lastB ≤ 1 := by
  induction suffix with
  | nil =>
    intro width cnt lastB hlb hpre
    unfold scanSegGo
    rcases hpre with h | h
    · left
      simp only [Nat.sub_self, List.take_zero]
      simpa [segWidth] using h
    · right
      omega
  | cons ch rest ih =>
    intro width cnt lastB hlb hpre
    unfold scanSegGo
    by_cases hbr : available < width + ch.w ∧ 0 < cnt
    · rw [if_pos hbr]
      rcases hpre with h | h
      · left
        have hk : (if 0 < lastB then lastB else cnt) - cnt = 0 := by
          split <;> omega
        rw [hk]
        simp only [List.take_zero]
        simpa [segWidth] using h
      · right
        split <;> omega
    · rw [if_neg hbr]
      have hpre' : width + ch.w ≤ available ∨ cnt + 1 ≤ 1 := by
        rcases Nat.lt_or_ge available (width + ch.w) with hw | hw
        · right; omega
        · left; exact hw
      have hlb' : (if isSoftBreak ch then cnt + 1 else lastB) ≤ cnt + 1 := by
        split <;> omega
      rcases ih (width + ch.w) (cnt + 1) _ hlb' hpre' with hih | hih
      · set k := scanSegGo available rest (width + ch.w) (cnt + 1)
          (if isSoftBreak ch then cnt + 1 else lastB) with hkdef
        rcases Nat.lt_or_ge cnt k with hkc | hkc
        · left
          have htk : (ch :: rest).take (k - cnt) = ch :: rest.take (k - (cnt + 1)) := by
            have : k - cnt = (k - (cnt + 1)) + 1 := by omega
            rw [this]
            rfl
          rw [htk]
          have : segWidth (ch :: rest.take (k - (cnt + 1))) =
              ch.w + segWidth (rest.take (k - (cnt + 1))) := by
            simp [segWidth]
          rw [this]
          omega
        · left
          have hk0 : k - cnt = 0 := by omega
          rw [hk0]
          simp only [List.take_zero]
          have : segWidth ([] : List WChar) = 0 := rfl
          omega
      · right
        exact hih

/-- The outer loop of `wrap_line`, decorated: each emitted segment carries
its byte range and the characters it contains.  The first segment gets the
full viewport width, continuations get `viewport − indent`
(`saturating_sub`); zero available width stops wrapping; after a segment,
leading spaces are skipped before the next one.  The `fuel` argument is a
structural bound: every iteration consumes at least one character, so
`suffix.length` fuel always suffices (see `wrapSegsGo`). -/
def wrapSegsGoF (viewport indent : Nat) :
    Nat → List WChar → Nat → Bool → List (Nat × Nat × List WChar)
  | 0, _, _, _ => []
  | fuel + 1, suffix, startByte, isFirst =>
    if suffix.isEmpty then []
    else
      if (if isFirst then viewport else viewport - indent) = 0 then []
      else
        let k := scanSeg (if isFirst then viewport else viewport - indent) suffix
        (startByte, startByte + sumBlen (suffix.take k), suffix.take k) ::
          wrapSegsGoF viewport indent fuel
            ((suffix.drop k).dropWhile (fun ch => ch.c == ' '))
            (startByte + sumBlen (suffix.take k) +
              sumBlen ((suffix.drop k).takeWhile (fun ch => ch.c == ' ')))
            false

/-- The outer loop of `wrap_line` at its canonical fuel. -/
def wrapSegsGo (viewport indent : Nat) (suffix : List WChar) (startByte : Nat)
    (isFirst : Bool) : List (Nat × Nat × List WChar) :=
  wrapSegsGoF viewport indent suffix.length suffix startByte isFirst

/-- `Editor::wrap_line`, decorated with each segment's characters: run the
outer loop; if no segment was produced, emit the whole content as one
segment `(0, content.len())`. -/
def wrapSegs (content : List WChar) (viewport indent : Nat) :
    List (Nat × Nat × List WChar) :=
  if (wrapSegsGo viewport indent content 0 true).isEmpty then
    [(0, sumBlen content, content)]
  else wrapSegsGo viewport indent content 0 true

/-- `Editor::wrap_line`: the emitted byte ranges. -/
def wrapLineRanges (content : List WChar) (viewport indent : Nat) :
    List (Nat × Nat) :=
  (wrapSegs content viewport indent).map (fun s => (s.1, s.2.1))

/-- The width bound over the outer loop, by induction on the fuel: every
emitted segment's characters fit its available width, or the segment is a
single character. -/
theorem wrapSegsGoF_width (viewport indent : Nat) (fuel : Nat) :
    ∀ (suffix : List WChar) (startByte : Nat) (isFirst : Bool),
      suffix.length ≤ fuel →
      ∀ (i : Nat) (seg : Nat × Nat × List WChar),
        (wrapSegsGoF viewport indent fuel suffix startByte isFirst)[i]? = some seg →
        segWidth seg.2.2 ≤ (if isFirst ∧ i = 0 then viewport else viewport - indent) ∨
        seg.2.2.length = 1 := by
  induction fuel with
  | zero =>
    intro suffix startByte isFirst hfuel i seg hget
    simp [wrapSegsGoF] at hget
  | succ m ih =>
    intro suffix startByte isFirst hfuel i seg hget
    by_cases hemp : suffix.isEmpty
    · simp [wrapSegsGoF, hemp] at hget
    · by_cases hav : (if isFirst then viewport else viewport - indent) = 0
      · simp [wrapSegsGoF, hemp, hav] at hget
      · have hne : suffix ≠ [] := by
          cases suffix with
          | nil => simp at hemp
          | cons a b => simp
        have hk1 : 1 ≤ scanSeg (if isFirst then viewport else viewport - indent)
            suffix := scanSeg_pos _ suffix hne
        have hunf : wrapSegsGoF viewport indent (m + 1) suffix startByte isFirst =
            (startByte,
              startByte + sumBlen (suffix.take
                (scanSeg (if isFirst then viewport else viewport - indent) suffix)),
              suffix.take
                (scanSeg (if isFirst then viewport else viewport - indent) suffix)) ::
            wrapSegsGoF viewport indent m
              ((suffix.drop
                  (scanSeg (if isFirst then viewport else viewport - indent) suffix)).dropWhile
                (fun ch => ch.c == ' '))
              (startByte + sumBlen (suffix.take
                  (scanSeg (if isFirst then viewport else viewport - indent) suffix)) +
                sumBlen ((suffix.drop
                    (scanSeg (if isFirst then viewport else viewport - indent) suffix)).takeWhile
                  (fun ch => ch.c == ' ')))
              false := by
          conv_lhs => rw [wrapSegsGoF]
          rw [if_neg (by simp [hemp]), if_neg hav]
        rw [hunf] at hget
        cases i with
        | zero =>
          rw [List.getElem?_cons_zero] at hget
          have hseg := Option.some.inj hget
          have hw := scanSegGo_width (if isFirst then viewport else viewport - indent)
            suffix 0 0 0 (le_refl 0) (Or.inl (Nat.zero_le _))
          rcases hw with hw | hw
          · left
            have hiff : (if isFirst ∧ (0 : Nat) = 0 then viewport
                else viewport - indent) =
                (if isFirst then viewport else viewport - indent) := by
              cases isFirst <;> simp
            rw [hiff, ← hseg]
            simpa [scanSeg] using hw
          · right
            have hkk : scanSeg (if isFirst then viewport else viewport - indent)
                suffix = 1 := by
              unfold scanSeg at hk1 ⊢
              omega
            rw [← hseg]
            show (suffix.take
              (scanSeg (if isFirst then viewport else viewport - indent) suffix)).length = 1
            rw [hkk, List.length_take]
            cases suffix with
            | nil => exact absurd rfl hne
            | cons a b => simp
        | succ j =>
          rw [List.getElem?_cons_succ] at hget
          have hlen : ((suffix.drop
              (scanSeg (if isFirst then viewport else viewport - indent) suffix)).dropWhile
            (fun ch => ch.c == ' ')).length ≤ m := by
            have h1 : ((suffix.drop
                (scanSeg (if isFirst then viewport else viewport - indent)
                  suffix)).dropWhile (fun ch => ch.c == ' ')).length ≤
                (suffix.drop
                  (scanSeg (if isFirst then viewport else viewport - indent)
                    suffix)).length :=
              (List.dropWhile_sublist _).length_le
            have h2 : (suffix.drop
                (scanSeg (if isFirst then viewport else viewport - indent)
                  suffix)).length = suffix.length -
                scanSeg (if isFirst then viewport else viewport - indent) suffix := by
              simp
            have h3 : 1 ≤ suffix.length := by
              cases suffix with
              | nil => exact absurd rfl hne
              | cons a b => simp
            omega
          have hrec := ih _ _ false hlen j seg hget
          rcases hrec with hr | hr
          · left
            have hiff : (if isFirst ∧ j + 1 = 0 then viewport
                else viewport - indent) = viewport - indent := by simp
            rw [hiff]
            simpa using hr
          · right
            exact hr

theorem wrapSegsGo_ne_nil (content : List WChar) (viewport indent : Nat)
    (hne : content ≠ []) (hv : 1 ≤ viewport) :
    wrapSegsGo viewport indent content 0 true ≠ [] := by
  unfold wrapSegsGo
  cases hl : content.length with
  | zero => exact absurd (List.length_eq_zero.mp hl) hne
  | succ m =>
    unfold wrapSegsGoF
    rw [if_neg (by simp [hne]), if_neg (by simp; omega)]
    simp

/-- C6 counterexample: line `"- abc"` (five width-1 characters), viewport
width 2, continuation indent 4 (the list-marker heuristic's indent for
this line).  `wrap_line` emits only the segment `(0, 2)`: the characters
at bytes 2, 3, 4 — each "wider" than the zero available continuation
width — appear in no segment at all, so they are dropped rather than
occupying their own segments. -/
theorem C6_counterexample :
    wrapLineRanges [⟨'-', 1⟩, ⟨' ', 1⟩, ⟨'a', 1⟩, ⟨'b', 1⟩, ⟨'c', 1⟩] 2 4 =
      [(0, 2)] ∧
    (∀ se ∈ wrapLineRanges [⟨'-', 1⟩, ⟨' ', 1⟩, ⟨'a', 1⟩, ⟨'b', 1⟩, ⟨'c', 1⟩] 2 4,
      ¬(se.1 ≤ 2 ∧ 2 < se.2)) ∧
    sumBlen [⟨'-', 1⟩, ⟨' ', 1⟩, ⟨'a', 1⟩, ⟨'b', 1⟩, ⟨'c', 1⟩] = 5 := by
  decide

/-- C6 (amended): for every viewport width ≥ 1, every segment `wrap_line`
emits has display width at most its available width (the full viewport
width for the first segment, viewport width minus indent for
continuations), except that a segment may consist of exactly one character
wider than its available width; however, when a continuation's available
width is zero (indent ≥ viewport width) wrapping stops and the remaining
characters of the line are not emitted, and the spaces skipped at wrap
break points are likewise not part of any segment. -/
theorem C6_wrap_width_bound (content : List WChar) (viewport indent : Nat)
    (hv : 1 ≤ viewport) (i : Nat) (seg : Nat × Nat × List WChar)
    (hget : (wrapSegs content viewport indent)[i]? = some seg) :
    segWidth seg.2.2 ≤ (if i = 0 then viewport else viewport - indent) ∨
    seg.2.2.length = 1 := by
  by_cases hne : content = []
  · subst hne
    have hfall : wrapSegs ([] : List WChar) viewport indent =
        [(0, sumBlen ([] : List WChar), ([] : List WChar))] := by
      unfold wrapSegs wrapSegsGo wrapSegsGoF
      simp
    rw [hfall] at hget
    cases i with
    | zero =>
      rw [List.getElem?_cons_zero] at hget
      have hseg := Option.some.inj hget
      left
      rw [← hseg]
      show segWidth [] ≤ _
      simp [segWidth]
    | succ j =>
      rw [List.getElem?_cons_succ] at hget
      simp at hget
  · have hgo := wrapSegsGo_ne_nil content viewport indent hne hv
    have hws : wrapSegs content viewport indent =
        wrapSegsGo viewport indent content 0 true := by
      unfold wrapSegs
      rw [if_neg (by simpa using hgo)]
    rw [hws] at hget
    have := wrapSegsGoF_width viewport indent content.length content 0 true
      (le_refl _) i seg hget
    rcases this with h | h
    · left
      cases hi : decide (i = 0) with
      | true =>
        have hi' : i = 0 := of_decide_eq_true hi
        subst hi'
        simpa using h
      | false =>
        have hi' : ¬ i = 0 := of_decide_eq_false hi
        rw [if_neg hi']
        rw [if_neg (by simp [hi'])] at h
        exact h
    · right
      exact h

/-- Witness for C6: line `"abcde"` at viewport 3, indent 0: the first
emitted segment `(0, 3)` holds three width-1 characters, within bounds. -/
theorem C6_wrap_width_bound_witness :
    segWidth ((0, 3, [⟨'a', 1⟩, ⟨'b', 1⟩, ⟨'c', 1⟩]) :
        Nat × Nat × List WChar).2.2 ≤ (if (0 : Nat) = 0 then 3 else 3 - 0) ∨
    ((0, 3, [⟨'a', 1⟩, ⟨'b', 1⟩, ⟨'c', 1⟩]) :
        Nat × Nat × List WChar).2.2.length = 1 :=
  C6_wrap_width_bound
    [⟨'a', 1⟩, ⟨'b', 1⟩, ⟨'c', 1⟩, ⟨'d', 1⟩, ⟨'e', 1⟩] 3 0 (by decide) 0
    (0, 3, [⟨'a', 1⟩, ⟨'b', 1⟩, ⟨'c', 1⟩]) (by decide)

/-! ## Position mapper (`Editor::get_visual_position`) -/

/-- The buffer's characters paired with their starting byte offsets. -/
def withOffsets : List WChar → Nat → List (Nat × WChar)
  | [], _ => []
  | c :: rest, ofs => (ofs, c) :: withOffsets rest (ofs + blen c)

/-- `rope.byte_slice(s..e).width()`: the total display width of the
characters whose byte span starts in `[s, e)` (at boundary-aligned
arguments, exactly the slice's characters). -/
def sliceWidth (buf : List WChar) (s e : Nat) : Nat :=
  (((withOffsets buf 0).filter (fun oc => decide (s ≤ oc.1 ∧ oc.1 < e))).map
    (fun oc => oc.2.w)).sum

/-- The row scan of `get_visual_position`: for each non-virtual row, a
position exactly at `end_byte` whose successor row is a continuation
starting there maps to the successor's indent column; otherwise a position
within `[start_byte, end_byte]` maps to `indent` plus the display width of
the row's text before it; virtual rows are skipped. -/
def gvpGo (buf : List WChar) (bytePos : Nat) :
    List (Option VisualLine) → Nat → Option (Nat × Nat)
  | [], _ => none
  | none :: rest, row => gvpGo buf bytePos rest (row + 1)
  | some vl :: rest, row =>
    match rest.head? with
    | some (some nvl) =>
      if bytePos = vl.end_byte ∧ nvl.is_continuation = true ∧
          nvl.start_byte = vl.end_byte then
        some (row + 1, nvl.indent)
      else if vl.start_byte ≤ bytePos ∧ bytePos ≤ vl.end_byte then
        some (row, vl.indent + sliceWidth buf vl.start_byte bytePos)
      else gvpGo buf bytePos rest (row + 1)
    | _ =>
      if vl.start_byte ≤ bytePos ∧ bytePos ≤ vl.end_byte then
        some (row, vl.indent + sliceWidth buf vl.start_byte bytePos)
      else gvpGo buf bytePos rest (row + 1)

/-- The fallback of `get_visual_position`: the last row holding a
`VisualLine`, if any. -/
def lastSomeRow (vls : List (Option VisualLine)) : Option Nat :=
  ((vls.enum.filter (fun pr => pr.2.isSome)).getLast?).map (fun pr => pr.1)

/-- `Editor::get_visual_position`. -/
def getVisualPosition (buf : List WChar) (virtualCount : Nat)
    (vls : List (Option VisualLine)) (bytePos : Nat) : Nat × Nat :=
  match gvpGo buf bytePos vls 0 with
  | some rc => rc
  | none =>
    match lastSomeRow vls with
    | some row => (row, 0)
    | none => (virtualCount, 0)

/-- The scan's behaviour at a position that is exactly some row's
`end_byte`, when all earlier non-virtual rows end strictly before it. -/
theorem gvpGo_at_end (buf : List WChar) (p : Nat) (vls : List (Option VisualLine)) :
    ∀ (row0 r : Nat) (vl : VisualLine),
      vls[r]? = some (some vl) → p = vl.end_byte →
      vl.start_byte ≤ vl.end_byte →
      (∀ r' vl', r' < r → vls[r']? = some (some vl') → vl'.end_byte < p) →
      gvpGo buf p vls row0 =
        (match vls[r + 1]? with
         | some (some nvl) =>
           if nvl.is_continuation = true ∧ nvl.start_byte = p then
             some (row0 + (r + 1), nvl.indent)
           else some (row0 + r, vl.indent + sliceWidth buf vl.start_byte p)
         | _ => some (row0 + r, vl.indent + sliceWidth buf vl.start_byte p)) := by
  induction vls with
  | nil =>
    intro row0 r vl hr
    simp at hr
  | cons x rest ih =>
    intro row0 r vl hr hp hse hearlier
    cases r with
    | zero =>
      rw [List.getElem?_cons_zero] at hr
      have hx : x = some vl := Option.some.inj hr
      subst hx
      cases rest with
      | nil =>
        show (if vl.start_byte ≤ p ∧ p ≤ vl.end_byte then
            some (row0, vl.indent + sliceWidth buf vl.start_byte p)
          else gvpGo buf p [] (row0 + 1)) = some (row0 + 0, _)
        rw [if_pos ⟨by omega, by omega⟩]
        rfl
      | cons y t =>
        cases y with
        | none =>
          have hidx0 : (some vl :: none :: t)[0 + 1]? = some none := by simp
          rw [hidx0]
          show (if vl.start_byte ≤ p ∧ p ≤ vl.end_byte then
              some (row0, vl.indent + sliceWidth buf vl.start_byte p)
            else gvpGo buf p (none :: t) (row0 + 1)) =
              some (row0 + 0, vl.indent + sliceWidth buf vl.start_byte p)
          rw [if_pos ⟨by omega, by omega⟩]
          rfl
        | some nvl =>
          have hidx0 : (some vl :: some nvl :: t)[0 + 1]? = some (some nvl) := by
            simp
          rw [hidx0]
          show (if p = vl.end_byte ∧ nvl.is_continuation = true ∧
              nvl.start_byte = vl.end_byte then
            some (row0 + 1, nvl.indent)
          else if vl.start_byte ≤ p ∧ p ≤ vl.end_byte then
            some (row0, vl.indent + sliceWidth buf vl.start_byte p)
          else gvpGo buf p (some nvl :: t) (row0 + 1)) =
            (if nvl.is_continuation = true ∧ nvl.start_byte = p then
              some (row0 + (0 + 1), nvl.indent)
            else some (row0 + 0, vl.indent + sliceWidth buf vl.start_byte p))
          by_cases hcond : nvl.is_continuation = true ∧ nvl.start_byte = p
          · rw [if_pos ⟨hp, hcond.1, hcond.2.trans hp⟩, if_pos hcond]
          · rw [if_neg (fun hco => hcond ⟨hco.2.1, hco.2.2.trans hp.symm⟩),
              if_pos ⟨by omega, by omega⟩, if_neg hcond]
            rfl
    | succ j =>
      rw [List.getElem?_cons_succ] at hr
      have hearlier' : ∀ r' vl', r' < j → rest[r']? = some (some vl') →
          vl'.end_byte < p := by
        intro r' vl' hlt hget
        exact hearlier (r' + 1) vl' (by omega)
          (by rw [List.getElem?_cons_succ]; exact hget)
      have hrec := ih (row0 + 1) j vl hr hp hse hearlier'
      have hidx : (x :: rest)[j + 1 + 1]? = rest[j + 1]? := List.getElem?_cons_succ ..
      rw [hidx]
      have harith : row0 + 1 + j = row0 + (j + 1) := by omega
      have harith1 : row0 + 1 + (j + 1) = row0 + (j + 1 + 1) := by omega
      cases x with
      | none =>
        show gvpGo buf p rest (row0 + 1) = _
        rw [hrec, harith, harith1]
      | some vl0 =>
        have hv0 : vl0.end_byte < p :=
          hearlier 0 vl0 (by omega) (by rw [List.getElem?_cons_zero])
        cases rest with
        | nil => simp at hr
        | cons y t =>
          cases y with
          | none =>
            show (if vl0.start_byte ≤ p ∧ p ≤ vl0.end_byte then
                some (row0, vl0.indent + sliceWidth buf vl0.start_byte p)
              else gvpGo buf p (none :: t) (row0 + 1)) = _
            rw [if_neg (by intro hco; omega), hrec, harith, harith1]
          | some nvl0 =>
            show (if p = vl0.end_byte ∧ nvl0.is_continuation = true ∧
                nvl0.start_byte = vl0.end_byte then
              some (row0 + 1, nvl0.indent)
            else if vl0.start_byte ≤ p ∧ p ≤ vl0.end_byte then
              some (row0, vl0.indent + sliceWidth buf vl0.start_byte p)
            else gvpGo buf p (some nvl0 :: t) (row0 + 1)) = _
            rw [if_neg (fun hco => absurd hco.1 (by omega)),
              if_neg (by intro hco; omega), hrec, harith, harith1]

/-- C9: for a byte position `p` lying exactly at the `end_byte` of the
first visual row that can claim it (every earlier non-virtual row ends
strictly before `p`), `get_visual_position` maps `p` to the next row at
that row's indent column when the next row is a continuation whose
`start_byte` equals `p`; otherwise it maps to the end of the current row,
column `indent` plus the display width of the row's text up to `p`. -/
theorem C9_end_byte_mapping (buf : List WChar) (virtualCount : Nat)
    (vls : List (Option VisualLine)) (r : Nat) (vl : VisualLine) (p : Nat)
    (hr : vls[r]? = some (some vl)) (hp : p = vl.end_byte)
    (hse : vl.start_byte ≤ vl.end_byte)
    (hearlier : ∀ r' vl', r' < r → vls[r']? = some (some vl') →
      vl'.end_byte < p) :
    getVisualPosition buf virtualCount vls p =
      (match vls[r + 1]? with
       | some (some nvl) =>
         if nvl.is_continuation = true ∧ nvl.start_byte = p then
           (r + 1, nvl.indent)
         else (r, vl.indent + sliceWidth buf vl.start_byte p)
       | _ => (r, vl.indent + sliceWidth buf vl.start_byte p)) := by
  have h := gvpGo_at_end buf p vls 0 r vl hr hp hse hearlier
  unfold getVisualPosition
  rw [h]
  cases hx : vls[r + 1]? with
  | none => simp
  | some o =>
    cases o with
    | none => simp
    | some nvl =>
      by_cases hc : nvl.is_continuation = true ∧ nvl.start_byte = p
      · simp [hc.1, hc.2]
      · simp [hc]

/-- Witness for C9: with rows `[virtual, "ab" (bytes 0..2),
continuation (bytes 2..5, indent 4), virtual]`, byte position 2 maps to
row 2 at column 4 (the continuation's indent). -/
theorem C9_end_byte_mapping_witness :
    getVisualPosition [] 0
      [none, some ⟨0, 2, false, 0, 0⟩, some ⟨2, 5, true, 4, 0⟩, none] 2 =
      (2, 4) := by
  have h := C9_end_byte_mapping [] 0
    [none, some ⟨0, 2, false, 0, 0⟩, some ⟨2, 5, true, 4, 0⟩, none]
    1 ⟨0, 2, false, 0, 0⟩ 2 (by decide) (by decide) (by decide)
    (by
      intro r' vl' h1 h2
      have hz : r' = 0 := by omega
      subst hz
      simp at h2)
  rw [h]
  decide

/-- One iteration of the `replace_all` loop: take the first remaining
match `(start, end)` of `find_matches` (the scan is ordered by start, so
this is the leftmost occurrence), delete `start..end` and insert the
replacement bytes at `start`; `none` when no match remains. -/
def replaceStep (q r b : List Nat) : Option (List Nat) :=
  match (findMatches b q).head? with
  | none => none
  | some se => some (b.take se.1 ++ r ++ b.drop se.2)

/-- `Editor::replace_all`'s loop on the rope bytes, with explicit fuel:
the Rust `while !self.find_matches.is_empty()` loop has no bound of its
own, so a run of `fuel` iterations under-approximates it; the loop has
finished when no match remains in the result. -/
def replaceAllGo (q r : List Nat) : Nat → List Nat → List Nat
  | 0, b => b
  | fuel + 1, b =>
    match replaceStep q r b with
    | none => b
    | some b2 => replaceAllGo q r fuel b2

/-- Termination of `replace_all` on a given input: some finite number of
loop iterations reaches a buffer with no remaining match. -/
def replaceAllTerminates (q r b : List Nat) : Prop :=
  ∃ fuel, findMatches (replaceAllGo q r fuel b) q = []

/-- The spec's example instance: on buffer "foo foo foo" with query "foo"
and replacement "bar", the loop terminates (three iterations reach a
match-free buffer) and the result is "bar bar bar". -/
theorem replaceAll_foo_bar_example :
    replaceAllTerminates [102, 111, 111] [98, 97, 114]
      [102, 111, 111, 32, 102, 111, 111, 32, 102, 111, 111] ∧
    replaceAllGo [102, 111, 111] [98, 97, 114] 3
      [102, 111, 111, 32, 102, 111, 111, 32, 102, 111, 111] =
      [98, 97, 114, 32, 98, 97, 114, 32, 98, 97, 114] :=
  ⟨⟨3, by decide⟩, by decide⟩

end TextEditor
